import Mathlib

/-!
Verification of the ferus expression grammar engine (src/expr.rs) and its two
tree renderers.  The parser combinators of the backing library (combine) are
modelled with Parsec-style consumed/empty semantics: a result records whether
input was consumed, choice retries only on an empty failure, and attempt
converts a consumed failure into an empty one.
-/

namespace Ferus

/-- Modelled from the spec: the parenthesis direction tag of the external
token alphabet (crate::lexer is not under src/; §6 of the spec lists
parenthesis tokens tagged with direction). -/
inductive Direction where
  | Left
  | Right
deriving DecidableEq

/-- Modelled from the spec: the keyword alphabet of the external lexer
(crate::lexer is not under src/); the variants are exactly the keywords the
grammar engine in src/expr.rs pattern-matches against. -/
inductive Reserved where
  | Let
  | Val
  | Equal
  | In
  | End
  | If
  | Then
  | Else
  | OrElse
  | AndAlso
  | Not
  | Add
  | Sub
  | Mult
  | Div
  | Mod
  | LessThan
deriving DecidableEq

/-- Modelled from the spec: an opaque literal value whose only required
capability is textual rendering (crate::lexer is not under src/). -/
structure Literal where
  text : String
deriving DecidableEq

/-- Modelled from the spec: the consumed token alphabet (crate::lexer is not
under src/): identifier, literal, whitespace run with its length, keyword,
parenthesis, and the distinguished end-of-input token. -/
inductive Token where
  | Name (s : String)
  | Lit (l : Literal)
  | Space (n : Nat)
  | Keyword (k : Reserved)
  | Paren (d : Direction)
  | EndOfFile
deriving DecidableEq

/-- Unary operator enumeration (src/expr.rs, enum UnaryOp). -/
inductive UnaryOp where
  | Not
deriving DecidableEq

/-- Display token of a unary operator (src/expr.rs, impl Display for UnaryOp). -/
def UnaryOp.display : UnaryOp → String
  | .Not => "not"

/-- Binary operator enumeration (src/expr.rs, enum BinaryOp). -/
inductive BinaryOp where
  | Add
  | Sub
  | Mult
  | Div
  | Mod
  | Equal
  | LessThan
  | OrElse
  | AndAlso
deriving DecidableEq

/-- Display token of a binary operator (src/expr.rs, impl Display for BinaryOp). -/
def BinaryOp.display : BinaryOp → String
  | .Add => "(+)"
  | .Sub => "(-)"
  | .Mult => "(*)"
  | .Div => "div"
  | .Mod => "mod"
  | .Equal => "(=)"
  | .LessThan => "(<)"
  | .OrElse => "orelse"
  | .AndAlso => "andalso"

/-- The expression AST (src/expr.rs, enum Expr). -/
inductive Expr where
  | Var (s : String)
  | Lit (l : Literal)
  | Unary (operation : UnaryOp) (child : Expr)
  | Binary (left : Expr) (operation : BinaryOp) (right : Expr)
  | IfThenElse (condition : Expr) (if_branch : Expr) (else_branch : Expr)
  | Let (n : String) (binder : Expr) (child : Expr)
deriving DecidableEq

/-! ## The box-drawing renderer (Expr::pretty) -/

/-- In-place prepend of a prefix to the line stored at index `i`
(models `lines[i].insert_str(0, s)` in src/expr.rs). -/
def modifyLine : List String → Nat → String → List String
  | [], _, _ => []
  | l :: ls, 0, s => (s ++ l) :: ls
  | l :: ls, i + 1, s => l :: modifyLine ls i s

/-- Prepend `s` to each of the `count` lines starting at index `lo`
(models the `for y in lo .. hi` re-prefixing loops in src/expr.rs,
with `count = hi - lo`). -/
def prefixLines : List String → Nat → Nat → String → List String
  | lines, _, 0, _ => lines
  | lines, lo, count + 1, s => prefixLines (modifyLine lines lo s) (lo + 1) count s

/-- The recursive worker of the box-drawing renderer (src/expr.rs, fn draw
inside Expr::pretty).  Lines are pushed to the end of the list and a child
block is retroactively re-prefixed; returns the grown line list together
with the new total number of lines (the Rust return value `bottom`). -/
def draw : Expr → List String → Nat → List String × Nat
  | .Var n, lines, cur => (lines ++ [n], cur + 1)
  | .Lit l, lines, cur => (lines ++ [l.text], cur + 1)
  | .Unary operation child, lines, cur =>
    let lines := lines ++ [operation.display]
    let lines := lines ++ ["│  "]
    let res := draw child lines (cur + 2)
    let lines := res.1
    let bottom := res.2
    let lines := modifyLine lines (cur + 2) "└──"
    let lines := prefixLines lines (cur + 3) (bottom - (cur + 3)) "   "
    (lines, bottom)
  | .Binary left operation right, lines, cur =>
    let lines := lines ++ [operation.display]
    let lines := lines ++ ["│  "]
    let resL := draw left lines (cur + 2)
    let lines := resL.1
    let top := resL.2
    let lines := modifyLine lines (cur + 2) "├──"
    let lines := prefixLines lines (cur + 3) (top - (cur + 3)) "│  "
    let lines := lines ++ ["│  "]
    let resR := draw right lines (top + 1)
    let lines := resR.1
    let bottom := resR.2
    let lines := modifyLine lines (top + 1) "└──"
    let lines := prefixLines lines (top + 2) (bottom - (top + 2)) "   "
    (lines, bottom)
  | .IfThenElse condition if_branch else_branch, lines, cur =>
    let lines := lines ++ ["if"]
    let lines := lines ++ ["│  "]
    let resC := draw condition lines (cur + 2)
    let lines := resC.1
    let top := resC.2
    let lines := modifyLine lines (cur + 2) "├──"
    let lines := prefixLines lines (cur + 3) (top - (cur + 3)) "│  "
    let lines := lines ++ ["│  "]
    let resT := draw if_branch lines (top + 1)
    let lines := resT.1
    let middle := resT.2
    let lines := modifyLine lines (top + 1) "├──"
    let lines := prefixLines lines (top + 2) (middle - (top + 2)) "│  "
    let lines := lines ++ ["│  "]
    let resE := draw else_branch lines (middle + 1)
    let lines := resE.1
    let bottom := resE.2
    let lines := modifyLine lines (middle + 1) "└──"
    let lines := prefixLines lines (middle + 2) (bottom - (middle + 2)) "   "
    (lines, bottom)
  | .Let n binder child, lines, cur =>
    let lines := lines ++ ["let " ++ n ++ "="]
    let lines := lines ++ ["│  "]
    let resB := draw binder lines (cur + 2)
    let lines := resB.1
    let top := resB.2
    let lines := modifyLine lines (cur + 2) "├──"
    let lines := prefixLines lines (cur + 3) (top - (cur + 3)) "│  "
    let lines := lines ++ ["│  "]
    let resC := draw child lines (top + 1)
    let lines := resC.1
    let bottom := resC.2
    let lines := modifyLine lines (top + 1) "└──"
    let lines := prefixLines lines (top + 2) (bottom - (top + 2)) "   "
    (lines, bottom)

/-- Join a list of lines with single newline separators and no trailing
terminator (models `lines.join("\n")` in src/expr.rs). -/
def joinLines : List String → String
  | [] => ""
  | [l] => l
  | l :: ls => l ++ "\n" ++ joinLines ls

/-- The box-drawing renderer entry point (src/expr.rs, Expr::pretty). -/
def pretty (e : Expr) : String :=
  joinLines (draw e [] 0).1

/-! ## The indented-outline renderer (impl Display for Expr) -/

/-- Indentation padding (src/expr.rs, fn padding inside the Display impl). -/
def padding (indent : Nat) : String :=
  String.mk (List.replicate indent ' ')

/-- The recursive worker of the indented-outline renderer (src/expr.rs,
fn draw_tree inside impl Display for Expr); the successive `write!` calls
are modelled as string concatenation. -/
def drawTree : Expr → Nat → String
  | .Var n, indent => padding indent ++ n ++ "\n"
  | .Lit l, indent => padding indent ++ l.text ++ "\n"
  | .Unary operation child, indent =>
    padding indent ++ operation.display ++ "\n" ++ drawTree child (indent + 3)
  | .Binary left operation right, indent =>
    padding indent ++ operation.display ++ "\n" ++
      drawTree left (indent + 3) ++ drawTree right (indent + 3)
  | .IfThenElse condition if_branch else_branch, indent =>
    padding indent ++ "if then else" ++ "\n" ++
      drawTree condition (indent + 3) ++ drawTree if_branch (indent + 3) ++
      drawTree else_branch (indent + 3)
  | .Let n binder child, indent =>
    padding indent ++ "let" ++ "\n" ++
      padding (indent + 3) ++ n ++ "\n" ++
      drawTree binder (indent + 3) ++ drawTree child (indent + 3)

/-- The indented-outline renderer entry point (src/expr.rs, the Display
implementation formats the tree starting at indent 0). -/
def display (e : Expr) : String :=
  drawTree e 0

/-! ## The combinator vocabulary (Parsec-style semantics of the combine crate)

A parse result carries the remaining input and a flag recording whether any
input was consumed; a failure carries only the consumed flag.  A sequence
fails consumed as soon as any part has consumed input, a choice retries only
on an empty failure, and attempt turns a consumed failure into an empty one.
-/

/-- Result of running a parsing rule: success with the value, the remaining
token stream and a consumed flag, or failure with a consumed flag. -/
inductive PResult (α : Type) where
  | ok (a : α) (rest : List Token) (consumed : Bool)
  | err (consumed : Bool)
deriving DecidableEq

/-- A parsing rule is a function from the token stream to a result. -/
abbrev Parser (α : Type) : Type :=
  List Token → PResult α

/-- Consume one token on which `f` yields a value; fail without consuming
otherwise (models combine's satisfy_map on a token stream). -/
def satisfyMap {α : Type} (f : Token → Option α) : Parser α := fun input =>
  match input with
  | [] => .err false
  | t :: ts =>
    match f t with
    | some a => .ok a ts true
    | none => .err false

/-- Map over the value of a successful parse (models Parser::map). -/
def pmap {α β : Type} (g : α → β) (p : Parser α) : Parser β := fun input =>
  match p input with
  | .ok a rest c => .ok (g a) rest c
  | .err c => .err c

/-- Run two rules in sequence, pairing their values; consumed flags merge,
and a failure after any consumption is a consumed failure (models tuple
sequencing in combine, also used by struct_parser!). -/
def seq {α β : Type} (p : Parser α) (q : Parser β) : Parser (α × β) := fun input =>
  match p input with
  | .err c => .err c
  | .ok a rest c₁ =>
    match q rest with
    | .ok b rest₂ c₂ => .ok (a, b) rest₂ (c₁ || c₂)
    | .err c₂ => .err (c₁ || c₂)

/-- Ordered choice: the second alternative is tried only when the first
fails without consuming input (models combine's choice). -/
def choice2 {α : Type} (p q : Parser α) : Parser α := fun input =>
  match p input with
  | .err false => q input
  | r => r

/-- Backtracking wrapper: a consumed failure becomes an empty failure, so an
enclosing choice may try its next alternative (models combine's attempt). -/
def attempt {α : Type} (p : Parser α) : Parser α := fun input =>
  match p input with
  | .err _ => .err false
  | r => r

/-- Optional rule: an empty failure yields `none` without consuming; a
consumed failure propagates (models combine's optional). -/
def optional {α : Type} (p : Parser α) : Parser (Option α) := fun input =>
  match p input with
  | .ok a rest c => .ok (some a) rest c
  | .err true => .err true
  | .err false => .ok none input false

/-- Bracketing: run `openP`, then `p`, then `closeP`, keeping the middle
value (models combine's between). -/
def between {α β γ : Type} (openP : Parser β) (closeP : Parser γ) (p : Parser α) :
    Parser α :=
  pmap (fun x => x.1.2) (seq (seq openP p) closeP)

/-- Iterative left-associative operator folding, the loop body of chainl1:
the fuel argument bounds the number of iterations (each successful
(operator, operand) pair consumes input, so `input.length + 1` is enough). -/
def chainl1Go {α : Type} (op : Parser (α → α → α)) (p : Parser α) :
    Nat → α → Bool → Parser α
  | 0, _, c, _ => .err c
  | fuel + 1, acc, c, input =>
    match seq op p input with
    | .ok fr rest c₂ => chainl1Go op p fuel (fr.1 acc fr.2) (c || c₂) rest
    | .err true => .err true
    | .err false => .ok acc input c

/-- Parse one operand, then fold subsequent (operator, operand) pairs into
the accumulator left-to-right (models combine's chainl1). -/
def chainl1 {α : Type} (p : Parser α) (op : Parser (α → α → α)) : Parser α :=
  fun input =>
    match p input with
    | .err c => .err c
    | .ok a rest c => chainl1Go op p (rest.length + 1) a c rest

/-! ## Lexical helpers (src/expr.rs, parser! blocks token / name / space / lex) -/

/-- Match one exact token (src/expr.rs, parser! fn token). -/
def token (t : Token) : Parser Unit :=
  satisfyMap fun cur => if cur = t then some () else none

/-- Consume one identifier token, yielding its name (src/expr.rs, parser!
fn name). -/
def name : Parser String :=
  satisfyMap fun t =>
    match t with
    | .Name n => some n
    | _ => none

/-- Consume one whitespace-run token of strictly positive length
(src/expr.rs, parser! fn space). -/
def space : Parser Unit :=
  satisfyMap fun t =>
    match t with
    | .Space n => if 0 < n then some () else none
    | _ => none

/-- Bracket a rule with an optional whitespace-run token on each side
(src/expr.rs, parser! fn lex). -/
def lex {α : Type} (p : Parser α) : Parser α :=
  between (optional space) (optional space) p

/-! ## The grammar engine (src/expr.rs, parser! blocks prog … atom)

The nine levels are mutually recursive only through `expn` (the let-form,
the if-form and the parenthesised atom re-enter it), so every level below
`expn` is written as a function of the parser `rec` standing for that
re-entry, and `expn` itself recurses on a fuel bound.  Each re-entry into
`expn` happens strictly after at least one token has been consumed, so a
fuel of `input.length + 1` can never be exhausted. -/

/-- The atom level: a name, a literal, or a parenthesised expression
(src/expr.rs, parser! fn atom). -/
def atom (rec : Parser Expr) : Parser Expr :=
  choice2
    (lex (satisfyMap fun t =>
      match t with
      | .Name n => some (Expr.Var n)
      | _ => none))
    (choice2
      (lex (satisfyMap fun t =>
        match t with
        | .Lit l => some (Expr.Lit l)
        | _ => none))
      (between (lex (token (.Paren .Left))) (lex (token (.Paren .Right)))
        (lex rec)))

/-- The unary level: a `not` keyword, one whitespace-run token, and an atom,
tried as a backtracking attempt before a bare atom (src/expr.rs, parser!
fn nega). -/
def nega (rec : Parser Expr) : Parser Expr :=
  choice2
    (attempt (pmap (fun x => Expr.Unary x.1.1 x.2)
      (seq
        (seq
          (satisfyMap fun t =>
            match t with
            | .Keyword .Not => some UnaryOp.Not
            | _ => none)
          space)
        (atom rec))))
    (atom rec)

/-- The multiplicative operator rule (src/expr.rs, the lexed satisfy_map
inside parser! fn mult). -/
def multOp : Parser (Expr → Expr → Expr) :=
  pmap (fun op left right => Expr.Binary left op right)
    (lex (satisfyMap fun t =>
      match t with
      | .Keyword .Mult => some BinaryOp.Mult
      | .Keyword .Div => some BinaryOp.Div
      | .Keyword .Mod => some BinaryOp.Mod
      | _ => none))

/-- The multiplicative level (src/expr.rs, parser! fn mult). -/
def mult (rec : Parser Expr) : Parser Expr :=
  chainl1 (nega rec) multOp

/-- The additive operator rule (src/expr.rs, the lexed satisfy_map inside
parser! fn add). -/
def addOp : Parser (Expr → Expr → Expr) :=
  pmap (fun op left right => Expr.Binary left op right)
    (lex (satisfyMap fun t =>
      match t with
      | .Keyword .Add => some BinaryOp.Add
      | .Keyword .Sub => some BinaryOp.Sub
      | _ => none))

/-- The additive level (src/expr.rs, parser! fn add). -/
def add (rec : Parser Expr) : Parser Expr :=
  chainl1 (mult rec) addOp

/-- The comparison operator rule (src/expr.rs, the lexed satisfy_map inside
parser! fn cmp). -/
def cmpOp : Parser BinaryOp :=
  lex (satisfyMap fun t =>
    match t with
    | .Keyword .Equal => some BinaryOp.Equal
    | .Keyword .LessThan => some BinaryOp.LessThan
    | _ => none)

/-- The non-chaining comparison level: one attempted `add op add`, with a
plain `add` as the fallback (src/expr.rs, parser! fn cmp). -/
def cmp (rec : Parser Expr) : Parser Expr :=
  choice2
    (attempt (pmap (fun x => Expr.Binary x.1.1 x.1.2 x.2)
      (seq (seq (add rec) cmpOp) (add rec))))
    (add rec)

/-- The conjunction operator rule (src/expr.rs, the lexed satisfy_map inside
parser! fn conj). -/
def andalsoOp : Parser (Expr → Expr → Expr) :=
  pmap (fun op left right => Expr.Binary left op right)
    (lex (satisfyMap fun t =>
      match t with
      | .Keyword .AndAlso => some BinaryOp.AndAlso
      | _ => none))

/-- The conjunction level (src/expr.rs, parser! fn conj). -/
def conj (rec : Parser Expr) : Parser Expr :=
  chainl1 (cmp rec) andalsoOp

/-- The disjunction operator rule; unlike the other operator rules it is not
wrapped in lex (src/expr.rs, the bare satisfy_map inside parser! fn disj). -/
def orelseOp : Parser (Expr → Expr → Expr) :=
  pmap (fun op left right => Expr.Binary left op right)
    (satisfyMap fun t =>
      match t with
      | .Keyword .OrElse => some BinaryOp.OrElse
      | _ => none)

/-- The disjunction level (src/expr.rs, parser! fn disj). -/
def disj (rec : Parser Expr) : Parser Expr :=
  chainl1 (conj rec) orelseOp

/-- The let-form (src/expr.rs, the struct_parser! let_val inside parser!
fn expn); the final `end` keyword is matched without lex. -/
def letVal (rec : Parser Expr) : Parser Expr :=
  pmap (fun x => Expr.Let x.1.1.1.1.1.2 x.1.1.1.2 x.1.2)
    (seq
      (seq
        (seq
          (seq
            (seq
              (seq
                (seq (lex (token (.Keyword .Let))) (lex (token (.Keyword .Val))))
                (lex name))
              (lex (token (.Keyword .Equal))))
            (lex rec))
          (lex (token (.Keyword .In))))
        (lex rec))
      (token (.Keyword .End)))

/-- The if-form (src/expr.rs, the struct_parser! if_then_else inside parser!
fn expn); the else-branch is parsed by a bare recursive call without lex. -/
def ifThenElse (rec : Parser Expr) : Parser Expr :=
  pmap (fun x => Expr.IfThenElse x.1.1.1.1.2 x.1.1.2 x.2)
    (seq
      (seq
        (seq
          (seq
            (seq (lex (token (.Keyword .If))) (lex rec))
            (lex (token (.Keyword .Then))))
          (lex rec))
        (lex (token (.Keyword .Else))))
      rec)

/-- One unfolding of the expression level: the let-form, then the if-form,
then the disjunction level (src/expr.rs, the choice inside parser! fn expn). -/
def expnStep (rec : Parser Expr) : Parser Expr :=
  choice2 (letVal rec) (choice2 (ifThenElse rec) (disj rec))

/-- The expression level, with a fuel bound on the recursion through the
let-form, the if-form and parenthesised atoms (src/expr.rs, parser! fn expn). -/
def expn : Nat → Parser Expr
  | 0 => fun _ => .err false
  | n + 1 => expnStep (expn n)

/-- The entry point at a given fuel: one expression followed by the
end-of-input token (src/expr.rs, parser! fn prog). -/
def progFuel (n : Nat) : Parser Expr :=
  pmap (fun x => x.1) (seq (expn n) (token .EndOfFile))

/-- The entry point (src/expr.rs, parser! fn prog): the fuel
`input.length + 1` dominates the recursion depth, since every re-entry into
`expn` happens after at least one token of the input has been consumed. -/
def prog : Parser Expr := fun input =>
  progFuel (input.length + 1) input

/-! ## Spec-side models used by the refinement claims -/

/-- Concatenation of a list of strings. -/
def strJoin : List String → String
  | [] => ""
  | s :: ss => s ++ strJoin ss

/-- Spec model of the indented-outline renderer of §4.3: one entry per
written line, each child rendered at the current indent plus 3 spaces, the
bound name of a let on its own line; the real output is these lines each
followed by a line terminator. -/
def outlineLines : Expr → Nat → List String
  | .Var n, indent => [padding indent ++ n]
  | .Lit l, indent => [padding indent ++ l.text]
  | .Unary operation child, indent =>
    (padding indent ++ operation.display) :: outlineLines child (indent + 3)
  | .Binary left operation right, indent =>
    (padding indent ++ operation.display) ::
      (outlineLines left (indent + 3) ++ outlineLines right (indent + 3))
  | .IfThenElse condition if_branch else_branch, indent =>
    (padding indent ++ "if then else") ::
      (outlineLines condition (indent + 3) ++ outlineLines if_branch (indent + 3) ++
        outlineLines else_branch (indent + 3))
  | .Let n binder child, indent =>
    (padding indent ++ "let") :: (padding (indent + 3) ++ n) ::
      (outlineLines binder (indent + 3) ++ outlineLines child (indent + 3))

/-- Prefix the first line of a child block with its branch connector and
every other line with the continuation marker (§4.3 of the spec). -/
def branchBlock (first cont : String) : List String → List String
  | [] => []
  | l :: ls => (first ++ l) :: ls.map (fun x => cont ++ x)

/-- Spec model of the box-drawing renderer of §4.3 as a pure bottom-up
composition: a node's label line, then each child's block behind a separator
line, the non-last children with connector `├──` and continuation `│  `,
the last child with connector `└──` and blank continuation. -/
def blockLines : Expr → List String
  | .Var n => [n]
  | .Lit l => [l.text]
  | .Unary operation child =>
    operation.display :: "│  " :: branchBlock "└──" "   " (blockLines child)
  | .Binary left operation right =>
    operation.display :: "│  " ::
      (branchBlock "├──" "│  " (blockLines left) ++
        "│  " :: branchBlock "└──" "   " (blockLines right))
  | .IfThenElse condition if_branch else_branch =>
    "if" :: "│  " ::
      (branchBlock "├──" "│  " (blockLines condition) ++
        "│  " :: branchBlock "├──" "│  " (blockLines if_branch) ++
          "│  " :: branchBlock "└──" "   " (blockLines else_branch))
  | .Let n binder child =>
    ("let " ++ n ++ "=") :: "│  " ::
      (branchBlock "├──" "│  " (blockLines binder) ++
        "│  " :: branchBlock "└──" "   " (blockLines child))

/-- A string not ending with a newline character. -/
def lastCharOK (s : String) : Prop :=
  s.data.getLast? ≠ some '\n'

/-- No leaf rendering of the tree (a variable name or a literal's text)
ends with a newline character. -/
def LeafOK : Expr → Prop
  | .Var n => lastCharOK n
  | .Lit l => lastCharOK l.text
  | .Unary _ child => LeafOK child
  | .Binary left _ right => LeafOK left ∧ LeafOK right
  | .IfThenElse condition if_branch else_branch =>
    LeafOK condition ∧ LeafOK if_branch ∧ LeafOK else_branch
  | .Let _ binder child => LeafOK binder ∧ LeafOK child

/-! ## Spec-side grammar (§4.2)

`Sent0` generates exactly the token spellings of the EBNF sentences of §4.2
(terminals only, no whitespace-run tokens).  `Sent` is the same grammar
except that one positive-length whitespace-run token follows each `not`
keyword, which is what the engine actually demands. -/

/-- The nine-level hierarchy of the grammar (the `name` and literal levels
are token kinds, not rules). -/
inductive Lv where
  | expn
  | disj
  | conj
  | cmp
  | add
  | mult
  | nega
  | atom
deriving DecidableEq

/-- Token streams spelling a sentence of the §4.2 grammar at each level,
with one positive-length whitespace-run token after each `not` keyword and
no other whitespace-run tokens. -/
inductive Sent : Lv → List Token → Prop where
  | letv {n : String} {S₁ S₂ : List Token} : Sent .expn S₁ → Sent .expn S₂ →
      Sent .expn ([.Keyword .Let, .Keyword .Val, .Name n, .Keyword .Equal] ++ S₁ ++
        [.Keyword .In] ++ S₂ ++ [.Keyword .End])
  | ifte {S₁ S₂ S₃ : List Token} : Sent .expn S₁ → Sent .expn S₂ → Sent .expn S₃ →
      Sent .expn ([.Keyword .If] ++ S₁ ++ [.Keyword .Then] ++ S₂ ++
        [.Keyword .Else] ++ S₃)
  | expnDisj {S : List Token} : Sent .disj S → Sent .expn S
  | disjStep {S₁ S₂ : List Token} : Sent .disj S₁ → Sent .conj S₂ →
      Sent .disj (S₁ ++ [.Keyword .OrElse] ++ S₂)
  | disjBase {S : List Token} : Sent .conj S → Sent .disj S
  | conjStep {S₁ S₂ : List Token} : Sent .conj S₁ → Sent .cmp S₂ →
      Sent .conj (S₁ ++ [.Keyword .AndAlso] ++ S₂)
  | conjBase {S : List Token} : Sent .cmp S → Sent .conj S
  | cmpBin {S₁ S₂ : List Token} {k : Reserved} :
      k = Reserved.Equal ∨ k = Reserved.LessThan →
      Sent .add S₁ → Sent .add S₂ → Sent .cmp (S₁ ++ [.Keyword k] ++ S₂)
  | cmpBase {S : List Token} : Sent .add S → Sent .cmp S
  | addStep {S₁ S₂ : List Token} {k : Reserved} :
      k = Reserved.Add ∨ k = Reserved.Sub →
      Sent .add S₁ → Sent .mult S₂ → Sent .add (S₁ ++ [.Keyword k] ++ S₂)
  | addBase {S : List Token} : Sent .mult S → Sent .add S
  | multStep {S₁ S₂ : List Token} {k : Reserved} :
      k = Reserved.Mult ∨ k = Reserved.Div ∨ k = Reserved.Mod →
      Sent .mult S₁ → Sent .nega S₂ → Sent .mult (S₁ ++ [.Keyword k] ++ S₂)
  | multBase {S : List Token} : Sent .nega S → Sent .mult S
  | negaNot {S : List Token} {j : Nat} : Sent .atom S →
      Sent .nega (.Keyword .Not :: .Space (j + 1) :: S)
  | negaBase {S : List Token} : Sent .atom S → Sent .nega S
  | atomName {n : String} : Sent .atom [.Name n]
  | atomLit {l : Literal} : Sent .atom [.Lit l]
  | atomParen {S : List Token} : Sent .expn S →
      Sent .atom (.Paren .Left :: S ++ [.Paren .Right])

/-- Token streams spelling a sentence of the §4.2 grammar at each level,
terminals only: no whitespace-run tokens anywhere. -/
inductive Sent0 : Lv → List Token → Prop where
  | letv {n : String} {S₁ S₂ : List Token} : Sent0 .expn S₁ → Sent0 .expn S₂ →
      Sent0 .expn ([.Keyword .Let, .Keyword .Val, .Name n, .Keyword .Equal] ++ S₁ ++
        [.Keyword .In] ++ S₂ ++ [.Keyword .End])
  | ifte {S₁ S₂ S₃ : List Token} : Sent0 .expn S₁ → Sent0 .expn S₂ → Sent0 .expn S₃ →
      Sent0 .expn ([.Keyword .If] ++ S₁ ++ [.Keyword .Then] ++ S₂ ++
        [.Keyword .Else] ++ S₃)
  | expnDisj {S : List Token} : Sent0 .disj S → Sent0 .expn S
  | disjStep {S₁ S₂ : List Token} : Sent0 .disj S₁ → Sent0 .conj S₂ →
      Sent0 .disj (S₁ ++ [.Keyword .OrElse] ++ S₂)
  | disjBase {S : List Token} : Sent0 .conj S → Sent0 .disj S
  | conjStep {S₁ S₂ : List Token} : Sent0 .conj S₁ → Sent0 .cmp S₂ →
      Sent0 .conj (S₁ ++ [.Keyword .AndAlso] ++ S₂)
  | conjBase {S : List Token} : Sent0 .cmp S → Sent0 .conj S
  | cmpBin {S₁ S₂ : List Token} {k : Reserved} :
      k = Reserved.Equal ∨ k = Reserved.LessThan →
      Sent0 .add S₁ → Sent0 .add S₂ → Sent0 .cmp (S₁ ++ [.Keyword k] ++ S₂)
  | cmpBase {S : List Token} : Sent0 .add S → Sent0 .cmp S
  | addStep {S₁ S₂ : List Token} {k : Reserved} :
      k = Reserved.Add ∨ k = Reserved.Sub →
      Sent0 .add S₁ → Sent0 .mult S₂ → Sent0 .add (S₁ ++ [.Keyword k] ++ S₂)
  | addBase {S : List Token} : Sent0 .mult S → Sent0 .add S
  | multStep {S₁ S₂ : List Token} {k : Reserved} :
      k = Reserved.Mult ∨ k = Reserved.Div ∨ k = Reserved.Mod →
      Sent0 .mult S₁ → Sent0 .nega S₂ → Sent0 .mult (S₁ ++ [.Keyword k] ++ S₂)
  | multBase {S : List Token} : Sent0 .nega S → Sent0 .mult S
  | negaNot {S : List Token} : Sent0 .atom S → Sent0 .nega (.Keyword .Not :: S)
  | negaBase {S : List Token} : Sent0 .atom S → Sent0 .nega S
  | atomName {n : String} : Sent0 .atom [.Name n]
  | atomLit {l : Literal} : Sent0 .atom [.Lit l]
  | atomParen {S : List Token} : Sent0 .expn S →
      Sent0 .atom (.Paren .Left :: S ++ [.Paren .Right])

/-! ## Token classifications used by the completeness argument -/

/-- The head of the stream is not a whitespace-run token. -/
def headNotSpace : List Token → Bool
  | .Space _ :: _ => false
  | _ => true

/-- Tokens that can start an expression-level sentence. -/
def startTok : Token → Bool
  | .Keyword .Let => true
  | .Keyword .If => true
  | .Keyword .Not => true
  | .Name _ => true
  | .Lit _ => true
  | .Paren .Left => true
  | _ => false

/-- Tokens that can start a sentence of a level strictly below `expn`. -/
def startTokD : Token → Bool
  | .Keyword .Not => true
  | .Name _ => true
  | .Lit _ => true
  | .Paren .Left => true
  | _ => false

/-- Tokens that can start an atom-level sentence. -/
def atomStartTok : Token → Bool
  | .Name _ => true
  | .Lit _ => true
  | .Paren .Left => true
  | _ => false

/-- Tokens that may legally follow a complete expression-level sentence. -/
def expnStop (t : Token) : Bool :=
  decide (t = .Keyword .In) || decide (t = .Keyword .End) ||
    decide (t = .Keyword .Then) || decide (t = .Keyword .Else) ||
    decide (t = .Paren .Right) || decide (t = .EndOfFile)

/-- Tokens that may follow a complete conjunction-level sentence. -/
def conjStop (t : Token) : Bool :=
  expnStop t || decide (t = .Keyword .OrElse)

/-- Tokens that may follow a complete comparison-level sentence. -/
def cmpStop (t : Token) : Bool :=
  conjStop t || decide (t = .Keyword .AndAlso)

/-- Tokens that may follow a complete additive-level sentence. -/
def addStop (t : Token) : Bool :=
  cmpStop t || decide (t = .Keyword .Equal) || decide (t = .Keyword .LessThan)

/-- Tokens that may follow a complete multiplicative-level sentence. -/
def multStop (t : Token) : Bool :=
  addStop t || decide (t = .Keyword .Add) || decide (t = .Keyword .Sub)

/-- Tokens that may follow a complete unary- or atom-level sentence. -/
def atomStop (t : Token) : Bool :=
  multStop t || decide (t = .Keyword .Mult) || decide (t = .Keyword .Div) ||
    decide (t = .Keyword .Mod)

/-- The remaining stream is empty or starts with an allowed follower. -/
def restStop (s : Token → Bool) : List Token → Bool
  | [] => true
  | t :: _ => s t

/-- The multiplicative operator tokens. -/
def multOpTok (t : Token) : Bool :=
  decide (t = .Keyword .Mult) || decide (t = .Keyword .Div) ||
    decide (t = .Keyword .Mod)

/-- The additive operator tokens. -/
def addOpTok (t : Token) : Bool :=
  decide (t = .Keyword .Add) || decide (t = .Keyword .Sub)

/-- The conjunction operator token. -/
def andalsoOpTok (t : Token) : Bool :=
  decide (t = .Keyword .AndAlso)

/-- The disjunction operator token. -/
def orelseOpTok (t : Token) : Bool :=
  decide (t = .Keyword .OrElse)

/-- Flatten a list of (operator token, operand sentence) pairs into the
token stream of the chain tail. -/
def chainFlat : List (Token × List Token) → List Token
  | [] => []
  | (t, S) :: rest => t :: (S ++ chainFlat rest)

/-- Completeness statement for a level below `expn`: on any sentence
followed by an allowed remainder, and with any sufficient fuel for the
re-entries into `expn`, the level's rule succeeds consuming exactly the
sentence. -/
def LevelOK (q : Parser Expr → Parser Expr) (stop : Token → Bool)
    (S : List Token) : Prop :=
  ∀ n rest, S.length ≤ n + 1 → restStop stop rest = true →
    ∃ e, q (expn n) (S ++ rest) = .ok e rest true

/-- Completeness statement for the expression level. -/
def ExpnOK (S : List Token) : Prop :=
  ∀ n rest, S.length ≤ n → restStop expnStop rest = true →
    ∃ e, expn n (S ++ rest) = .ok e rest true

/-- Decomposition of a left-recursive chain-level sentence into its first
operand and its (operator, operand) tail, each operand carrying the
completeness statement of the next level down. -/
def ChainDecomp (sub : Lv) (opTok : Token → Bool) (SubOK : List Token → Prop)
    (S : List Token) : Prop :=
  ∃ S₀ comps, S = S₀ ++ chainFlat comps ∧ Sent sub S₀ ∧ SubOK S₀ ∧
    ∀ t Si, (t, Si) ∈ comps → opTok t = true ∧ Sent sub Si ∧ SubOK Si

/-- The induction motive of the completeness proof, level by level. -/
def St : Lv → List Token → Prop
  | .expn, S => ExpnOK S
  | .disj, S => ChainDecomp .conj orelseOpTok (LevelOK conj conjStop) S
  | .conj, S => ChainDecomp .cmp andalsoOpTok (LevelOK cmp cmpStop) S
  | .cmp, S => LevelOK cmp cmpStop S
  | .add, S => ChainDecomp .mult addOpTok (LevelOK mult multStop) S
  | .mult, S => ChainDecomp .nega multOpTok (LevelOK nega atomStop) S
  | .nega, S => LevelOK nega atomStop S
  | .atom, S => LevelOK atom atomStop S

/-! ## Concrete parses: associativity, precedence, non-chaining, nesting -/

/-- Claim C3: the levels disj, conj, add and mult are strictly
left-associative folds.  Parsing the token stream of `a - b - c` yields the
left-nested tree Binary (Binary a Sub b) Sub c and never the right-nested
tree Binary a Sub (Binary b Sub c); the same left-nesting holds for the
orelse, andalso and `*` chains, covering all four fold levels. -/
theorem c3_left_assoc (a b c : String) :
    prog [.Name a, .Keyword .Sub, .Name b, .Keyword .Sub, .Name c, .EndOfFile] =
      .ok (.Binary (.Binary (.Var a) .Sub (.Var b)) .Sub (.Var c)) [] true ∧
    (Expr.Binary (.Binary (.Var a) .Sub (.Var b)) .Sub (.Var c) ≠
      Expr.Binary (.Var a) .Sub (.Binary (.Var b) .Sub (.Var c))) ∧
    prog [.Name a, .Keyword .OrElse, .Name b, .Keyword .OrElse, .Name c, .EndOfFile] =
      .ok (.Binary (.Binary (.Var a) .OrElse (.Var b)) .OrElse (.Var c)) [] true ∧
    prog [.Name a, .Keyword .AndAlso, .Name b, .Keyword .AndAlso, .Name c, .EndOfFile] =
      .ok (.Binary (.Binary (.Var a) .AndAlso (.Var b)) .AndAlso (.Var c)) [] true ∧
    prog [.Name a, .Keyword .Mult, .Name b, .Keyword .Mult, .Name c, .EndOfFile] =
      .ok (.Binary (.Binary (.Var a) .Mult (.Var b)) .Mult (.Var c)) [] true := by
  refine ⟨rfl, ?_, rfl, rfl, rfl⟩
  simp

/-- Claim C4: precedence ordering holds end-to-end.  The token stream of
`1 + 2 * 3` parses with the multiplication nested inside the addition, and
the token stream of `not a andalso b orelse c` parses as
Binary (Binary (Unary Not a) AndAlso b) OrElse c. -/
theorem c4_precedence (a b c : String) :
    prog [.Lit ⟨"1"⟩, .Space 1, .Keyword .Add, .Space 1, .Lit ⟨"2"⟩, .Space 1,
        .Keyword .Mult, .Space 1, .Lit ⟨"3"⟩, .EndOfFile] =
      .ok (.Binary (.Lit ⟨"1"⟩) .Add (.Binary (.Lit ⟨"2"⟩) .Mult (.Lit ⟨"3"⟩))) [] true ∧
    prog [.Keyword .Not, .Space 1, .Name a, .Space 1, .Keyword .AndAlso, .Space 1,
        .Name b, .Space 1, .Keyword .OrElse, .Space 1, .Name c, .EndOfFile] =
      .ok (.Binary (.Binary (.Unary .Not (.Var a)) .AndAlso (.Var b)) .OrElse (.Var c))
        [] true :=
  ⟨rfl, rfl⟩

/-- Claim C5: comparison is non-chaining.  On the token stream of
`a = b = c` the cmp level accepts the single comparison `a = b` and leaves
the second `=` unconsumed, and the entry point fails (after having consumed
input) instead of producing a tree with two comparison nodes. -/
theorem c5_cmp_non_chaining (a b c : String) :
    prog [.Name a, .Keyword .Equal, .Name b, .Keyword .Equal, .Name c, .EndOfFile] =
      .err true ∧
    cmp (expn 0) [.Name a, .Keyword .Equal, .Name b, .Keyword .Equal, .Name c,
        .EndOfFile] =
      .ok (.Binary (.Var a) .Equal (.Var b)) [.Keyword .Equal, .Name c, .EndOfFile]
        true :=
  ⟨rfl, rfl⟩

/-- Claim C6: unary `not` does not stack.  On the token stream of
`not not x` the nega level fails with an empty failure (the attempted unary
form backtracks and the bare-atom fallback also fails), and the entry point
fails as well. -/
theorem c6_not_non_stacking (x : String) :
    nega (expn 0) [.Keyword .Not, .Space 1, .Keyword .Not, .Space 1, .Name x] =
      .err false ∧
    prog [.Keyword .Not, .Space 1, .Keyword .Not, .Space 1, .Name x, .EndOfFile] =
      .err false :=
  ⟨rfl, rfl⟩

/-- Claim C7: the if-form and the let-form are right-recursive on their
final sub-expression.  `if a then if b then c else d else e` parses with the
inner conditional exactly in the outer if-branch and `e` as the outer
else-branch, and `let val x = a in let val y = b in c end end` parses with
the inner binding exactly in the outer body. -/
theorem c7_right_nesting (a b c d e x y : String) :
    prog [.Keyword .If, .Name a, .Keyword .Then, .Keyword .If, .Name b,
        .Keyword .Then, .Name c, .Keyword .Else, .Name d, .Keyword .Else,
        .Name e, .EndOfFile] =
      .ok (.IfThenElse (.Var a) (.IfThenElse (.Var b) (.Var c) (.Var d)) (.Var e))
        [] true ∧
    prog [.Keyword .Let, .Keyword .Val, .Name x, .Keyword .Equal, .Name a,
        .Keyword .In, .Keyword .Let, .Keyword .Val, .Name y, .Keyword .Equal,
        .Name b, .Keyword .In, .Name c, .Keyword .End, .Keyword .End,
        .EndOfFile] =
      .ok (.Let x (.Var a) (.Let y (.Var b) (.Var c))) [] true :=
  ⟨rfl, rfl⟩

/-- Claim C8: for a Binary node with two leaf children `x`, `y` and operator
Add, the box-drawing renderer outputs the label line `(+)`, then the first
child's line prefixed with the connector, then the last child's line
prefixed with its connector, in that order, with one separator line
containing the continuation marker between the label and the first child's
block and one between the two children's blocks. -/
theorem c8_pretty_binary :
    pretty (.Binary (.Var "x") .Add (.Var "y")) =
      "(+)" ++ "\n" ++ "│  " ++ "\n" ++ "├──" ++ "x" ++ "\n" ++ "│  " ++ "\n" ++
        "└──" ++ "y" := by
  decide

/-! ## Counterexamples to the claims the code refutes -/

/-- Claim C1 as stated is false: the stream of tokens spelling the §4.2
sentence `not x` (terminals only) followed by the end-of-input token makes
`prog` fail, because the engine demands a positive-length whitespace-run
token between `not` and its atom. -/
theorem c1_counterexample :
    Sent0 .expn [.Keyword .Not, .Name "x"] ∧
    prog [.Keyword .Not, .Name "x", .EndOfFile] = .err false :=
  ⟨.expnDisj (.disjBase (.conjBase (.cmpBase (.addBase (.multBase
    (.negaNot .atomName)))))), by decide⟩

/-- Claim C2 as stated is false: the streams spelling `not x` with zero and
with one whitespace-run token between `not` and `x` do not parse
identically, and a whitespace-run token of length 0 is not equivalent to no
whitespace token at that position. -/
theorem c2_counterexample :
    prog [.Keyword .Not, .Name "x", .EndOfFile] = .err false ∧
    prog [.Keyword .Not, .Space 1, .Name "x", .EndOfFile] =
      .ok (.Unary .Not (.Var "x")) [] true ∧
    prog [.Name "a", .Space 0, .EndOfFile] = .err true ∧
    prog [.Name "a", .EndOfFile] = .ok (.Var "a") [] true := by
  refine ⟨by decide, by decide, by decide, by decide⟩

/-- Claim C10 as stated is false: when a leaf's text itself ends with a
newline character the box-drawing renderer's output ends with a newline. -/
theorem c10_counterexample :
    (pretty (.Var "x\n")).data.getLast? = some '\n' := by
  decide

/-- Claim C2 amended: whitespace is optional at lex-bracketed positions
(around a binary operator a stream with one positive-length whitespace-run
token between adjacent tokens parses exactly like the stream with none),
but exactly one positive-length whitespace-run token is required between
`not` and its operand, and a whitespace-run token of length 0 is never
consumed, hence not equivalent to absent whitespace. -/
theorem c2_whitespace (a b x : String) :
    prog [.Name a, .Space 1, .Keyword .Add, .Space 1, .Name b, .EndOfFile] =
      .ok (.Binary (.Var a) .Add (.Var b)) [] true ∧
    prog [.Name a, .Keyword .Add, .Name b, .EndOfFile] =
      .ok (.Binary (.Var a) .Add (.Var b)) [] true ∧
    prog [.Keyword .Not, .Space 1, .Name x, .EndOfFile] =
      .ok (.Unary .Not (.Var x)) [] true ∧
    prog [.Keyword .Not, .Name x, .EndOfFile] = .err false ∧
    prog [.Name a, .Space 0, .EndOfFile] = .err true ∧
    prog [.Name a, .EndOfFile] = .ok (.Var a) [] true :=
  ⟨rfl, rfl, rfl, rfl, rfl, rfl⟩

/-! ## The indented-outline renderer is its line model joined with
terminators -/

/-- Concatenation distributes over strJoin. -/
theorem strJoin_append (l₁ l₂ : List String) :
    strJoin (l₁ ++ l₂) = strJoin l₁ ++ strJoin l₂ := by
  induction l₁ with
  | nil => simp [strJoin, String.empty_append]
  | cons s l ih => simp [strJoin, ih, String.append_assoc]

/-- The outline line model of a tree is never empty. -/
theorem outlineLines_ne_nil (e : Expr) (i : Nat) : outlineLines e i ≠ [] := by
  cases e <;> simp [outlineLines]

/-- The recursive outline renderer equals its line model with a terminator
appended to every line. -/
theorem drawTree_join (e : Expr) (i : Nat) :
    drawTree e i = strJoin ((outlineLines e i).map (fun l => l ++ "\n")) := by
  induction e generalizing i with
  | Var n => simp [drawTree, outlineLines, strJoin, String.append_empty]
  | Lit l => simp [drawTree, outlineLines, strJoin, String.append_empty]
  | Unary op c ih =>
    simp [drawTree, outlineLines, strJoin, ih, String.append_assoc]
  | Binary l op r ihl ihr =>
    simp [drawTree, outlineLines, strJoin, strJoin_append, ihl, ihr,
      String.append_assoc]
  | IfThenElse c t e ihc iht ihe =>
    simp [drawTree, outlineLines, strJoin, strJoin_append, ihc, iht, ihe,
      String.append_assoc]
  | Let n b c ihb ihc =>
    simp [drawTree, outlineLines, strJoin, strJoin_append, ihb, ihc,
      String.append_assoc]

/-- Joining a nonempty list of terminator-suffixed lines yields a string
whose last character is the terminator. -/
theorem strJoin_terminated_last :
    ∀ ls : List String, ls ≠ [] →
      (strJoin (ls.map (fun l => l ++ "\n"))).data.getLast? = some '\n'
  | [], h => absurd rfl h
  | [x], _ => by
    simp [strJoin, String.data_append, String.append_empty]
  | x :: y :: tl, _ => by
    have ih := strJoin_terminated_last (y :: tl) (by simp)
    have hne : (strJoin ((y :: tl).map (fun l => l ++ "\n"))).data ≠ [] := by
      intro hnil
      rw [hnil] at ih
      simp at ih
    show ((x ++ "\n") ++ strJoin ((y :: tl).map (fun l => l ++ "\n"))).data.getLast? =
      some '\n'
    rw [String.data_append, List.getLast?_append_of_ne_nil _ hne]
    exact ih

/-! ## The box-drawing renderer is its pure block model joined with
newline separators -/

/-- Modifying a line at an index past a fixed prefix acts on the suffix. -/
theorem modifyLine_append (L M : List String) (i : Nat) (s : String) :
    modifyLine (L ++ M) (L.length + i) s = L ++ modifyLine M i s := by
  induction L with
  | nil => simp
  | cons l L ih =>
    have h : (l :: L).length + i = (L.length + i) + 1 := by
      simp
      omega
    rw [h]
    show l :: modifyLine (L ++ M) (L.length + i) s = l :: (L ++ modifyLine M i s)
    rw [ih]

/-- Prefixing a run of lines past a fixed prefix maps the suffix. -/
theorem prefixLines_append (M : List String) (L : List String) (s : String) :
    prefixLines (L ++ M) L.length M.length s = L ++ M.map (fun x => s ++ x) := by
  induction M generalizing L with
  | nil => simp [prefixLines]
  | cons b bs ih =>
    show prefixLines (modifyLine (L ++ b :: bs) L.length s) (L.length + 1)
      bs.length s = L ++ (b :: bs).map (fun x => s ++ x)
    have h0 : modifyLine (L ++ b :: bs) L.length s = (L ++ [s ++ b]) ++ bs := by
      have h := modifyLine_append L (b :: bs) 0 s
      rw [Nat.add_zero] at h
      rw [h]
      show L ++ (s ++ b) :: bs = (L ++ [s ++ b]) ++ bs
      simp
    have h1 : L.length + 1 = (L ++ [s ++ b]).length := by simp
    rw [h0, h1, ih (L ++ [s ++ b])]
    simp

/-- Inserting a connector on the first line of a child block and then
prefixing the rest of the block realises the block model's branch marking. -/
theorem branch_step (P : List String) (b : String) (bs : List String)
    (f c : String) (i j k : Nat) (hi : i = P.length) (hj : j = P.length + 1)
    (hk : k = bs.length) :
    prefixLines (modifyLine (P ++ b :: bs) i f) j k c =
      P ++ branchBlock f c (b :: bs) := by
  subst hi hj hk
  have h0 : modifyLine (P ++ b :: bs) P.length f = (P ++ [f ++ b]) ++ bs := by
    have h := modifyLine_append P (b :: bs) 0 f
    rw [Nat.add_zero] at h
    rw [h]
    show P ++ (f ++ b) :: bs = (P ++ [f ++ b]) ++ bs
    simp
  have h1 : P.length + 1 = (P ++ [f ++ b]).length := by simp
  rw [h0, h1, prefixLines_append]
  simp [branchBlock]

/-- A branch-marked block has as many lines as the block itself. -/
theorem branchBlock_length (f c : String) (ls : List String) :
    (branchBlock f c ls).length = ls.length := by
  cases ls <;> simp [branchBlock]

/-- The block model of a tree is never empty. -/
theorem blockLines_ne_nil (e : Expr) : blockLines e ≠ [] := by
  cases e <;> simp [blockLines]

/-- A nonempty block can be split into its head line and tail. -/
theorem blockLines_cons (e : Expr) :
    ∃ b bs, blockLines e = b :: bs := by
  cases h : blockLines e with
  | nil => exact absurd h (blockLines_ne_nil e)
  | cons b bs => exact ⟨b, bs, rfl⟩

/-- The imperative renderer worker, run from the end of an arbitrary line
list, appends exactly the pure block model of the tree and returns the new
total line count. -/
theorem draw_append (e : Expr) (L : List String) :
    draw e L L.length = (L ++ blockLines e, L.length + (blockLines e).length) := by
  induction e generalizing L with
  | Var n => simp [draw, blockLines]
  | Lit l => simp [draw, blockLines]
  | Unary op c ih =>
    obtain ⟨b, bs, hbc⟩ := blockLines_cons c
    have hdc := ih ((L ++ [op.display]) ++ ["│  "])
    rw [hbc] at hdc
    have hlen : ((L ++ [op.display]) ++ ["│  "]).length = L.length + 2 := by simp
    rw [hlen] at hdc
    simp only [draw]
    rw [hdc]
    dsimp only
    rw [branch_step ((L ++ [op.display]) ++ ["│  "]) b bs "└──" "   "
      (L.length + 2) (L.length + 3) (L.length + 2 + (b :: bs).length - (L.length + 3))
      (by simp <;> omega) (by simp <;> omega) (by simp <;> omega)]
    simp only [Prod.mk.injEq]
    constructor
    · simp [blockLines, hbc]
    · simp [blockLines, hbc, branchBlock_length]
      omega
  | Binary l op r ihl ihr =>
    obtain ⟨bl, bsl, hbl⟩ := blockLines_cons l
    obtain ⟨br, bsr, hbr⟩ := blockLines_cons r
    have hdl := ihl ((L ++ [op.display]) ++ ["│  "])
    rw [hbl] at hdl
    have hlen : ((L ++ [op.display]) ++ ["│  "]).length = L.length + 2 := by simp
    rw [hlen] at hdl
    simp only [draw]
    rw [hdl]
    dsimp only
    rw [branch_step ((L ++ [op.display]) ++ ["│  "]) bl bsl "├──" "│  "
      (L.length + 2) (L.length + 3) (L.length + 2 + (bl :: bsl).length - (L.length + 3))
      (by simp <;> omega) (by simp <;> omega) (by simp <;> omega)]
    have hdr := ihr ((((L ++ [op.display]) ++ ["│  "]) ++
      branchBlock "├──" "│  " (bl :: bsl)) ++ ["│  "])
    rw [hbr] at hdr
    have hlen2 : (((((L ++ [op.display]) ++ ["│  "]) ++
        branchBlock "├──" "│  " (bl :: bsl)) ++ ["│  "])).length =
        L.length + 2 + (bl :: bsl).length + 1 := by
      simp [branchBlock_length]
      omega
    rw [hlen2] at hdr
    rw [hdr]
    dsimp only
    rw [branch_step ((((L ++ [op.display]) ++ ["│  "]) ++
        branchBlock "├──" "│  " (bl :: bsl)) ++ ["│  "]) br bsr "└──" "   "
      (L.length + 2 + (bl :: bsl).length + 1)
      (L.length + 2 + (bl :: bsl).length + 2)
      (L.length + 2 + (bl :: bsl).length + 1 + (br :: bsr).length -
        (L.length + 2 + (bl :: bsl).length + 2))
      (by simp [branchBlock_length] <;> omega) (by simp [branchBlock_length] <;> omega) (by simp <;> omega)]
    simp only [Prod.mk.injEq]
    constructor
    · simp [blockLines, hbl, hbr]
    · simp [blockLines, hbl, hbr, branchBlock_length]
      omega
  | IfThenElse c t e ihc iht ihe =>
    obtain ⟨bc, bsc, hbc⟩ := blockLines_cons c
    obtain ⟨bt, bst, hbt⟩ := blockLines_cons t
    obtain ⟨be, bse, hbe⟩ := blockLines_cons e
    have hdc := ihc ((L ++ ["if"]) ++ ["│  "])
    rw [hbc] at hdc
    have hlen : ((L ++ ["if"]) ++ ["│  "]).length = L.length + 2 := by simp
    rw [hlen] at hdc
    simp only [draw]
    rw [hdc]
    dsimp only
    rw [branch_step ((L ++ ["if"]) ++ ["│  "]) bc bsc "├──" "│  "
      (L.length + 2) (L.length + 3) (L.length + 2 + (bc :: bsc).length - (L.length + 3))
      (by simp <;> omega) (by simp <;> omega) (by simp <;> omega)]
    have hdt := iht ((((L ++ ["if"]) ++ ["│  "]) ++
      branchBlock "├──" "│  " (bc :: bsc)) ++ ["│  "])
    rw [hbt] at hdt
    have hlen2 : ((((L ++ ["if"]) ++ ["│  "]) ++
        branchBlock "├──" "│  " (bc :: bsc)) ++ ["│  "]).length =
        L.length + 2 + (bc :: bsc).length + 1 := by
      simp [branchBlock_length]
      omega
    rw [hlen2] at hdt
    rw [hdt]
    dsimp only
    rw [branch_step ((((L ++ ["if"]) ++ ["│  "]) ++
        branchBlock "├──" "│  " (bc :: bsc)) ++ ["│  "]) bt bst "├──" "│  "
      (L.length + 2 + (bc :: bsc).length + 1)
      (L.length + 2 + (bc :: bsc).length + 2)
      (L.length + 2 + (bc :: bsc).length + 1 + (bt :: bst).length -
        (L.length + 2 + (bc :: bsc).length + 2))
      (by simp [branchBlock_length] <;> omega) (by simp [branchBlock_length] <;> omega) (by simp <;> omega)]
    have hde := ihe ((((((L ++ ["if"]) ++ ["│  "]) ++
      branchBlock "├──" "│  " (bc :: bsc)) ++ ["│  "]) ++
      branchBlock "├──" "│  " (bt :: bst)) ++ ["│  "])
    rw [hbe] at hde
    have hlen3 : ((((((L ++ ["if"]) ++ ["│  "]) ++
        branchBlock "├──" "│  " (bc :: bsc)) ++ ["│  "]) ++
        branchBlock "├──" "│  " (bt :: bst)) ++ ["│  "]).length =
        L.length + 2 + (bc :: bsc).length + 1 + (bt :: bst).length + 1 := by
      simp [branchBlock_length]
      omega
    rw [hlen3] at hde
    rw [hde]
    dsimp only
    rw [branch_step ((((((L ++ ["if"]) ++ ["│  "]) ++
        branchBlock "├──" "│  " (bc :: bsc)) ++ ["│  "]) ++
        branchBlock "├──" "│  " (bt :: bst)) ++ ["│  "]) be bse "└──" "   "
      (L.length + 2 + (bc :: bsc).length + 1 + (bt :: bst).length + 1)
      (L.length + 2 + (bc :: bsc).length + 1 + (bt :: bst).length + 2)
      (L.length + 2 + (bc :: bsc).length + 1 + (bt :: bst).length + 1 +
        (be :: bse).length -
        (L.length + 2 + (bc :: bsc).length + 1 + (bt :: bst).length + 2))
      (by simp [branchBlock_length] <;> omega) (by simp [branchBlock_length] <;> omega) (by simp <;> omega)]
    simp only [Prod.mk.injEq]
    constructor
    · simp [blockLines, hbc, hbt, hbe]
    · simp [blockLines, hbc, hbt, hbe, branchBlock_length]
      omega
  | Let n b c ihb ihc =>
    obtain ⟨bb, bsb, hbb⟩ := blockLines_cons b
    obtain ⟨bc, bsc, hbc⟩ := blockLines_cons c
    have hdb := ihb ((L ++ ["let " ++ n ++ "="]) ++ ["│  "])
    rw [hbb] at hdb
    have hlen : ((L ++ ["let " ++ n ++ "="]) ++ ["│  "]).length = L.length + 2 := by
      simp
    rw [hlen] at hdb
    simp only [draw]
    rw [hdb]
    dsimp only
    rw [branch_step ((L ++ ["let " ++ n ++ "="]) ++ ["│  "]) bb bsb "├──" "│  "
      (L.length + 2) (L.length + 3) (L.length + 2 + (bb :: bsb).length - (L.length + 3))
      (by simp <;> omega) (by simp <;> omega) (by simp <;> omega)]
    have hdc := ihc ((((L ++ ["let " ++ n ++ "="]) ++ ["│  "]) ++
      branchBlock "├──" "│  " (bb :: bsb)) ++ ["│  "])
    rw [hbc] at hdc
    have hlen2 : ((((L ++ ["let " ++ n ++ "="]) ++ ["│  "]) ++
        branchBlock "├──" "│  " (bb :: bsb)) ++ ["│  "]).length =
        L.length + 2 + (bb :: bsb).length + 1 := by
      simp [branchBlock_length]
      omega
    rw [hlen2] at hdc
    rw [hdc]
    dsimp only
    rw [branch_step ((((L ++ ["let " ++ n ++ "="]) ++ ["│  "]) ++
        branchBlock "├──" "│  " (bb :: bsb)) ++ ["│  "]) bc bsc "└──" "   "
      (L.length + 2 + (bb :: bsb).length + 1)
      (L.length + 2 + (bb :: bsb).length + 2)
      (L.length + 2 + (bb :: bsb).length + 1 + (bc :: bsc).length -
        (L.length + 2 + (bb :: bsb).length + 2))
      (by simp [branchBlock_length] <;> omega) (by simp [branchBlock_length] <;> omega) (by simp <;> omega)]
    simp only [Prod.mk.injEq]
    constructor
    · simp [blockLines, hbb, hbc]
    · simp [blockLines, hbb, hbc, branchBlock_length]
      omega

/-- The renderer entry point equals the block model joined by newline
separators with no trailing terminator. -/
theorem pretty_eq_blockLines (e : Expr) : pretty e = joinLines (blockLines e) := by
  show joinLines (draw e [] 0).1 = _
  have h : draw e [] 0 = ([] ++ blockLines e, 0 + (blockLines e).length) :=
    draw_append e []
  rw [h]
  simp

/-- A nonempty string has a nonempty character list. -/
theorem data_ne_nil {s : String} (h : s ≠ "") : s.data ≠ [] := by
  intro hd
  exact h (String.ext (hd.trans rfl))

/-- Appending preserves the absence of a trailing newline. -/
theorem lastCharOK_append {s t : String} (hs : lastCharOK s) (ht : lastCharOK t) :
    lastCharOK (s ++ t) := by
  unfold lastCharOK at *
  rw [String.data_append]
  by_cases h : t.data = []
  · rw [h, List.append_nil]
    exact hs
  · rw [List.getLast?_append_of_ne_nil _ h]
    exact ht

/-- Appending to a nonempty string keeps it nonempty. -/
theorem append_ne_empty_left {s t : String} (h : s ≠ "") : s ++ t ≠ "" := by
  intro he
  have hd : (s ++ t).data = [] := by rw [he]
  rw [String.data_append] at hd
  rcases List.append_eq_nil.mp hd with ⟨h1, _⟩
  exact data_ne_nil h h1

/-- The last element of a cons with a nonempty tail is the tail's last. -/
theorem getLast?_cons_of_ne_nil {α : Type} (a : α) {l : List α} (h : l ≠ []) :
    (a :: l).getLast? = l.getLast? := by
  cases l with
  | nil => exact absurd rfl h
  | cons b t => exact List.getLast?_cons_cons

/-- The last element past an append followed by a cons with nonempty tail. -/
theorem getLast?_append_cons {α : Type} (X : List α) (a : α) {B : List α}
    (hB : B ≠ []) : (X ++ a :: B).getLast? = B.getLast? := by
  rw [List.getLast?_append_of_ne_nil _ (by simp)]
  exact getLast?_cons_of_ne_nil a hB

/-- A branch-marked nonempty block ends in a nonempty line with no trailing
newline, provided the block's last line has none and the markers have none. -/
theorem branchBlock_last {ls : List String} {l : String} (f c : String)
    (hf : f ≠ "") (hc : c ≠ "") (hfo : lastCharOK f) (hco : lastCharOK c)
    (hl : ls.getLast? = some l) (hok : lastCharOK l) :
    ∃ x, (branchBlock f c ls).getLast? = some x ∧ lastCharOK x ∧ x ≠ "" := by
  cases ls with
  | nil => simp at hl
  | cons b bs =>
    cases bs with
    | nil =>
      have hbl : b = l := by simpa using hl
      subst hbl
      exact ⟨f ++ b, by simp [branchBlock], lastCharOK_append hfo hok,
        append_ne_empty_left hf⟩
    | cons y tl =>
      have h2 : (y :: tl).getLast? = some l := by
        rwa [List.getLast?_cons_cons] at hl
      refine ⟨c ++ l, ?_, lastCharOK_append hco hok, append_ne_empty_left hc⟩
      show ((f ++ b) :: (y :: tl).map (fun x => c ++ x)).getLast? = some (c ++ l)
      rw [getLast?_cons_of_ne_nil _ (by simp), List.getLast?_map, h2]
      rfl

/-- A branch-marked block of a tree block is never empty. -/
theorem branchBlock_blockLines_ne_nil (f c : String) (e : Expr) :
    branchBlock f c (blockLines e) ≠ [] := by
  obtain ⟨b, bs, h⟩ := blockLines_cons e
  rw [h]
  simp [branchBlock]

/-- When no leaf text of the tree ends with a newline, the block model ends
in a line with no trailing newline, and that line is empty only when the
block is that single line. -/
theorem blockLines_last (e : Expr) (h : LeafOK e) :
    ∃ l, (blockLines e).getLast? = some l ∧ lastCharOK l ∧
      (l ≠ "" ∨ blockLines e = [l]) := by
  induction e with
  | Var n => exact ⟨n, by simp [blockLines], h, Or.inr rfl⟩
  | Lit l => exact ⟨l.text, by simp [blockLines], h, Or.inr rfl⟩
  | Unary op c ih =>
    obtain ⟨l, hl, hok, _⟩ := ih h
    obtain ⟨x, hx, hxo, hxn⟩ := branchBlock_last "└──" "   "
      (by decide) (by decide) (by unfold lastCharOK; decide) (by unfold lastCharOK; decide) hl hok
    refine ⟨x, ?_, hxo, Or.inl hxn⟩
    show (op.display :: "│  " :: branchBlock "└──" "   " (blockLines c)).getLast? =
      some x
    rw [List.getLast?_cons_cons,
      getLast?_cons_of_ne_nil _ (branchBlock_blockLines_ne_nil _ _ c)]
    exact hx
  | Binary left op right ihl ihr =>
    obtain ⟨l, hl, hok, _⟩ := ihr h.2
    obtain ⟨x, hx, hxo, hxn⟩ := branchBlock_last "└──" "   "
      (by decide) (by decide) (by unfold lastCharOK; decide) (by unfold lastCharOK; decide) hl hok
    refine ⟨x, ?_, hxo, Or.inl hxn⟩
    show (op.display :: "│  " ::
      (branchBlock "├──" "│  " (blockLines left) ++
        "│  " :: branchBlock "└──" "   " (blockLines right))).getLast? = some x
    rw [List.getLast?_cons_cons, getLast?_cons_of_ne_nil _ (by simp),
      getLast?_append_cons _ _ (branchBlock_blockLines_ne_nil _ _ right)]
    exact hx
  | IfThenElse c t e ihc iht ihe =>
    obtain ⟨l, hl, hok, _⟩ := ihe h.2.2
    obtain ⟨x, hx, hxo, hxn⟩ := branchBlock_last "└──" "   "
      (by decide) (by decide) (by unfold lastCharOK; decide) (by unfold lastCharOK; decide) hl hok
    refine ⟨x, ?_, hxo, Or.inl hxn⟩
    show ("if" :: "│  " ::
      (branchBlock "├──" "│  " (blockLines c) ++
        "│  " :: branchBlock "├──" "│  " (blockLines t) ++
          "│  " :: branchBlock "└──" "   " (blockLines e))).getLast? = some x
    rw [List.getLast?_cons_cons, getLast?_cons_of_ne_nil _ (by simp),
      List.append_assoc,
      List.getLast?_append_of_ne_nil _ (by simp),
      getLast?_append_cons _ _ (branchBlock_blockLines_ne_nil _ _ e)]
    exact hx
  | Let n b c ihb ihc =>
    obtain ⟨l, hl, hok, _⟩ := ihc h.2
    obtain ⟨x, hx, hxo, hxn⟩ := branchBlock_last "└──" "   "
      (by decide) (by decide) (by unfold lastCharOK; decide) (by unfold lastCharOK; decide) hl hok
    refine ⟨x, ?_, hxo, Or.inl hxn⟩
    show (("let " ++ n ++ "=") :: "│  " ::
      (branchBlock "├──" "│  " (blockLines b) ++
        "│  " :: branchBlock "└──" "   " (blockLines c))).getLast? = some x
    rw [List.getLast?_cons_cons, getLast?_cons_of_ne_nil _ (by simp),
      getLast?_append_cons _ _ (branchBlock_blockLines_ne_nil _ _ c)]
    exact hx

/-- Joining lines whose last line is nonempty with no trailing newline
yields a nonempty string with no trailing newline. -/
theorem joinLines_last :
    ∀ (ls : List String) (l : String), ls.getLast? = some l → l ≠ "" →
      lastCharOK l → lastCharOK (joinLines ls) ∧ (joinLines ls).data ≠ []
  | [], l, h, _, _ => by simp at h
  | [x], l, h, hne, hok => by
    have hxl : x = l := by simpa using h
    subst hxl
    exact ⟨hok, data_ne_nil hne⟩
  | x :: y :: tl, l, h, hne, hok => by
    rw [List.getLast?_cons_cons] at h
    obtain ⟨ih1, ih2⟩ := joinLines_last (y :: tl) l h hne hok
    constructor
    · show lastCharOK ((x ++ "\n") ++ joinLines (y :: tl))
      unfold lastCharOK
      rw [String.data_append, List.getLast?_append_of_ne_nil _ ih2]
      exact ih1
    · show ((x ++ "\n") ++ joinLines (y :: tl)).data ≠ []
      rw [String.data_append]
      simp [ih2]

/-- Claim C10 amended: the box-drawing renderer returns its lines joined by
single newline characters with no trailing terminator; whenever no leaf text
of the tree ends with a newline character, the returned string does not end
in a newline — unlike the indented-outline renderer, whose output always
ends with one. -/
theorem c10_no_trailing_newline (e : Expr) (h : LeafOK e) :
    pretty e = joinLines (blockLines e) ∧ lastCharOK (pretty e) ∧
    (display e).data.getLast? = some '\n' := by
  refine ⟨pretty_eq_blockLines e, ?_, ?_⟩
  · rw [pretty_eq_blockLines e]
    obtain ⟨l, hl, hok, hcase⟩ := blockLines_last e h
    rcases hcase with hne | hsing
    · exact (joinLines_last _ l hl hne hok).1
    · rw [hsing]
      exact hok
  · show (drawTree e 0).data.getLast? = some '\n'
    rw [drawTree_join e 0]
    exact strJoin_terminated_last _ (outlineLines_ne_nil e 0)

/-! ## Behaviour lemmas for the combinator vocabulary -/

theorem seq_ok {α β : Type} {p : Parser α} {q : Parser β}
    {input rest rest₂ : List Token} {a : α} {b : β} {c₁ c₂ : Bool}
    (hp : p input = .ok a rest c₁) (hq : q rest = .ok b rest₂ c₂) :
    seq p q input = .ok (a, b) rest₂ (c₁ || c₂) := by
  simp [seq, hp, hq]

theorem seq_err1 {α β : Type} {p : Parser α} {q : Parser β}
    {input : List Token} {c : Bool} (hp : p input = .err c) :
    seq p q input = .err c := by
  simp [seq, hp]

theorem seq_err2 {α β : Type} {p : Parser α} {q : Parser β}
    {input rest : List Token} {a : α} {c₁ c₂ : Bool}
    (hp : p input = .ok a rest c₁) (hq : q rest = .err c₂) :
    seq p q input = .err (c₁ || c₂) := by
  simp [seq, hp, hq]

theorem pmap_ok {α β : Type} {g : α → β} {p : Parser α}
    {input rest : List Token} {a : α} {c : Bool} (hp : p input = .ok a rest c) :
    pmap g p input = .ok (g a) rest c := by
  simp [pmap, hp]

theorem pmap_err {α β : Type} {g : α → β} {p : Parser α}
    {input : List Token} {c : Bool} (hp : p input = .err c) :
    pmap g p input = .err c := by
  simp [pmap, hp]

theorem choice2_ok {α : Type} {p q : Parser α} {input rest : List Token}
    {a : α} {c : Bool} (hp : p input = .ok a rest c) :
    choice2 p q input = .ok a rest c := by
  simp [choice2, hp]

theorem choice2_err1 {α : Type} {p q : Parser α} {input : List Token}
    (hp : p input = .err false) : choice2 p q input = q input := by
  simp [choice2, hp]

theorem attempt_ok {α : Type} {p : Parser α} {input rest : List Token}
    {a : α} {c : Bool} (hp : p input = .ok a rest c) :
    attempt p input = .ok a rest c := by
  simp [attempt, hp]

theorem attempt_err {α : Type} {p : Parser α} {input : List Token} {c : Bool}
    (hp : p input = .err c) : attempt p input = .err false := by
  simp [attempt, hp]

theorem optional_space_skip {input : List Token} (h : headNotSpace input = true) :
    optional space input = .ok none input false := by
  cases input with
  | nil => rfl
  | cons t ts => cases t <;> simp_all [headNotSpace, optional, space, satisfyMap]

theorem lex_ok {α : Type} {p : Parser α} {input rest : List Token} {a : α}
    {c : Bool} (hp : p input = .ok a rest c) (h₁ : headNotSpace input = true)
    (h₂ : headNotSpace rest = true) : lex p input = .ok a rest c := by
  have o₁ := optional_space_skip h₁
  have o₂ := optional_space_skip h₂
  simp [lex, between, pmap, seq, o₁, o₂, hp]

theorem lex_err {α : Type} {p : Parser α} {input : List Token} {c : Bool}
    (hp : p input = .err c) (h₁ : headNotSpace input = true) :
    lex p input = .err c := by
  have o₁ := optional_space_skip h₁
  simp [lex, between, pmap, seq, o₁, hp]

theorem token_ok (t : Token) (ts : List Token) :
    token t (t :: ts) = .ok () ts true := by
  simp [token, satisfyMap]

theorem token_err {t u : Token} (h : u ≠ t) (ts : List Token) :
    token t (u :: ts) = .err false := by
  simp [token, satisfyMap, h]

theorem space_pos (j : Nat) (ts : List Token) :
    space (.Space (j + 1) :: ts) = .ok () ts true := by
  simp [space, satisfyMap]

/-! ## Token-class facts used by the completeness proof -/

theorem expnStop_conjStop {t : Token} (h : expnStop t = true) :
    conjStop t = true := by
  simp [conjStop, h]

theorem conjStop_cmpStop {t : Token} (h : conjStop t = true) :
    cmpStop t = true := by
  simp [cmpStop, h]

theorem cmpStop_addStop {t : Token} (h : cmpStop t = true) :
    addStop t = true := by
  simp [addStop, h]

theorem addStop_multStop {t : Token} (h : addStop t = true) :
    multStop t = true := by
  simp [multStop, h]

theorem multStop_atomStop {t : Token} (h : multStop t = true) :
    atomStop t = true := by
  simp [atomStop, h]

theorem atomStop_not_space {t : Token} (h : atomStop t = true) (ts : List Token) :
    headNotSpace (t :: ts) = true := by
  cases t <;>
    simp_all [atomStop, multStop, addStop, cmpStop, conjStop, expnStop,
      headNotSpace]

theorem restStop_mono {s₁ s₂ : Token → Bool} (hs : ∀ t, s₁ t = true → s₂ t = true)
    {rest : List Token} (h : restStop s₁ rest = true) : restStop s₂ rest = true := by
  cases rest with
  | nil => rfl
  | cons t ts => exact hs t h

theorem restStop_atom_not_space {rest : List Token}
    (h : restStop atomStop rest = true) : headNotSpace rest = true := by
  cases rest with
  | nil => rfl
  | cons t ts => exact atomStop_not_space h ts

theorem headNotSpace_append {S X : List Token} (hne : S ≠ [])
    (h : headNotSpace S = true) : headNotSpace (S ++ X) = true := by
  cases S with
  | nil => exact absurd rfl hne
  | cons t ts => cases t <;> simp_all [headNotSpace]

/-- Every sentence is nonempty, starts with a legal start token, starts
below `expn` with a token that is not `let` or `if`, and at the atom level
with a name, a literal or an opening parenthesis. -/
theorem sent_start {lv : Lv} {S : List Token} (h : Sent lv S) :
    ∃ t S', S = t :: S' ∧ startTok t = true ∧
      (lv ≠ .expn → startTokD t = true) ∧
      (lv = .atom → atomStartTok t = true) := by
  induction h with
  | letv _ _ _ _ =>
    exact ⟨.Keyword .Let, _, rfl, rfl, by simp, by simp⟩
  | ifte _ _ _ _ _ _ =>
    exact ⟨.Keyword .If, _, rfl, rfl, by simp, by simp⟩
  | expnDisj _ ih =>
    obtain ⟨t, S', hS, h1, h2, _⟩ := ih
    exact ⟨t, S', hS, h1, by simp, by simp⟩
  | @disjStep S₁ S₂ _ _ ih _ =>
    obtain ⟨t, S', hS, h1, h2, _⟩ := ih
    exact ⟨t, S' ++ [.Keyword .OrElse] ++ S₂, by rw [hS]; simp, h1,
      fun _ => h2 (by simp), by simp⟩
  | disjBase _ ih =>
    obtain ⟨t, S', hS, h1, h2, _⟩ := ih
    exact ⟨t, S', hS, h1, fun _ => h2 (by simp), by simp⟩
  | @conjStep S₁ S₂ _ _ ih _ =>
    obtain ⟨t, S', hS, h1, h2, _⟩ := ih
    exact ⟨t, S' ++ [.Keyword .AndAlso] ++ S₂, by rw [hS]; simp, h1,
      fun _ => h2 (by simp), by simp⟩
  | conjBase _ ih =>
    obtain ⟨t, S', hS, h1, h2, _⟩ := ih
    exact ⟨t, S', hS, h1, fun _ => h2 (by simp), by simp⟩
  | @cmpBin S₁ S₂ k _ _ _ ih _ =>
    obtain ⟨t, S', hS, h1, h2, _⟩ := ih
    exact ⟨t, S' ++ [.Keyword k] ++ S₂, by rw [hS]; simp, h1,
      fun _ => h2 (by simp), by simp⟩
  | cmpBase _ ih =>
    obtain ⟨t, S', hS, h1, h2, _⟩ := ih
    exact ⟨t, S', hS, h1, fun _ => h2 (by simp), by simp⟩
  | @addStep S₁ S₂ k _ _ _ ih _ =>
    obtain ⟨t, S', hS, h1, h2, _⟩ := ih
    exact ⟨t, S' ++ [.Keyword k] ++ S₂, by rw [hS]; simp, h1,
      fun _ => h2 (by simp), by simp⟩
  | addBase _ ih =>
    obtain ⟨t, S', hS, h1, h2, _⟩ := ih
    exact ⟨t, S', hS, h1, fun _ => h2 (by simp), by simp⟩
  | @multStep S₁ S₂ k _ _ _ ih _ =>
    obtain ⟨t, S', hS, h1, h2, _⟩ := ih
    exact ⟨t, S' ++ [.Keyword k] ++ S₂, by rw [hS]; simp, h1,
      fun _ => h2 (by simp), by simp⟩
  | multBase _ ih =>
    obtain ⟨t, S', hS, h1, h2, _⟩ := ih
    exact ⟨t, S', hS, h1, fun _ => h2 (by simp), by simp⟩
  | negaNot _ _ =>
    exact ⟨.Keyword .Not, _, rfl, rfl, fun _ => rfl, by simp⟩
  | negaBase _ ih =>
    obtain ⟨t, S', hS, h1, h2, _⟩ := ih
    exact ⟨t, S', hS, h1, fun _ => h2 (by simp), by simp⟩
  | atomName =>
    exact ⟨.Name _, [], rfl, rfl, fun _ => rfl, fun _ => rfl⟩
  | atomLit =>
    exact ⟨.Lit _, [], rfl, rfl, fun _ => rfl, fun _ => rfl⟩
  | atomParen _ _ =>
    exact ⟨.Paren .Left, _, rfl, rfl, fun _ => rfl, fun _ => rfl⟩

theorem startTok_not_space {t : Token} (h : startTok t = true) (ts : List Token) :
    headNotSpace (t :: ts) = true := by
  cases t <;> simp_all [startTok, headNotSpace]

/-- A sentence stream never starts with a whitespace-run token. -/
theorem sent_not_space {lv : Lv} {S : List Token} (h : Sent lv S) (X : List Token) :
    headNotSpace (S ++ X) = true := by
  obtain ⟨t, S', hS, h1, _, _⟩ := sent_start h
  rw [hS]
  exact startTok_not_space h1 (S' ++ X)

theorem sent_ne_nil {lv : Lv} {S : List Token} (h : Sent lv S) : S ≠ [] := by
  obtain ⟨t, S', hS, _, _, _⟩ := sent_start h
  rw [hS]
  simp

/-! ## Completeness of the left-fold chain levels -/

theorem chainFlat_append (xs ys : List (Token × List Token)) :
    chainFlat (xs ++ ys) = chainFlat xs ++ chainFlat ys := by
  induction xs with
  | nil => simp [chainFlat]
  | cons hd tl ih =>
    obtain ⟨t, S⟩ := hd
    simp [chainFlat, ih]

theorem chainFlat_mem_length {comps : List (Token × List Token)}
    {t : Token} {Si : List Token} (h : (t, Si) ∈ comps) :
    Si.length < (chainFlat comps).length := by
  induction comps with
  | nil => simp at h
  | cons hd tl ih =>
    obtain ⟨t', S'⟩ := hd
    rcases List.mem_cons.mp h with heq | hmem
    · injection heq with h1 h2
      subst h2
      simp [chainFlat]
      omega
    · have := ih hmem
      simp [chainFlat] at this ⊢
      omega

/-- The chainl1 loop consumes a flattened chain tail and stops exactly at an
allowed remainder. -/
theorem chainRun (p : Parser Expr) (op : Parser (Expr → Expr → Expr))
    (stop substop opTok : Token → Bool)
    (hss : ∀ t, stop t = true → substop t = true)
    (hos : ∀ t, opTok t = true → substop t = true)
    (hop_err : ∀ rest, restStop stop rest = true → op rest = .err false)
    (hop_ok : ∀ t ts, opTok t = true → headNotSpace ts = true →
      ∃ f, op (t :: ts) = .ok f ts true)
    (hsub_ns : ∀ rest, restStop substop rest = true → headNotSpace rest = true) :
    ∀ (comps : List (Token × List Token)) (rest : List Token) (acc : Expr)
      (fuel : Nat),
      (∀ t Si, (t, Si) ∈ comps → opTok t = true ∧ Si ≠ [] ∧
        headNotSpace Si = true ∧
        (∀ tail, restStop substop tail = true →
          ∃ e, p (Si ++ tail) = .ok e tail true)) →
      restStop stop rest = true →
      (chainFlat comps ++ rest).length < fuel →
      ∃ e, chainl1Go op p fuel acc true (chainFlat comps ++ rest) =
        .ok e rest true := by
  intro comps
  induction comps with
  | nil =>
    intro rest acc fuel _ hrest hfuel
    cases fuel with
    | zero => simp at hfuel
    | succ f =>
      refine ⟨acc, ?_⟩
      show chainl1Go op p (f + 1) acc true rest = .ok acc rest true
      have hop := hop_err rest hrest
      simp [chainl1Go, seq_err1 hop]
  | cons hd tl ih =>
    obtain ⟨t, Si⟩ := hd
    intro rest acc fuel hcomps hrest hfuel
    obtain ⟨hopt, hne, hns, hsub⟩ := hcomps t Si (by simp)
    cases fuel with
    | zero => simp at hfuel
    | succ f =>
      have htail_ns : headNotSpace (Si ++ (chainFlat tl ++ rest)) = true :=
        headNotSpace_append hne hns
      obtain ⟨f₁, hf₁⟩ := hop_ok t (Si ++ (chainFlat tl ++ rest)) hopt htail_ns
      have hsubcond : restStop substop (chainFlat tl ++ rest) = true := by
        cases htl : tl with
        | nil =>
          simp [chainFlat]
          exact restStop_mono hss hrest
        | cons hd' tl' =>
          obtain ⟨t', S'⟩ := hd'
          obtain ⟨hopt', _, _, _⟩ := hcomps t' S' (by simp [htl])
          simp [chainFlat]
          exact hos t' hopt'
      obtain ⟨e₁, he₁⟩ := hsub (chainFlat tl ++ rest) hsubcond
      have hpair : seq op p (t :: (Si ++ (chainFlat tl ++ rest))) =
          .ok (f₁, e₁) (chainFlat tl ++ rest) true := by
        have h := seq_ok hf₁ he₁
        simpa using h
      have hflat : chainFlat ((t, Si) :: tl) ++ rest =
          t :: (Si ++ (chainFlat tl ++ rest)) := by
        simp [chainFlat]
      rw [hflat]
      show ∃ e, chainl1Go op p (f + 1) acc true
        (t :: (Si ++ (chainFlat tl ++ rest))) = .ok e rest true
      have hstep : chainl1Go op p (f + 1) acc true
          (t :: (Si ++ (chainFlat tl ++ rest))) =
          chainl1Go op p f (f₁ acc e₁) true (chainFlat tl ++ rest) := by
        simp [chainl1Go, hpair]
      rw [hstep]
      apply ih rest (f₁ acc e₁) f
        (fun t' S' hmem => hcomps t' S' (by simp [hmem])) hrest
      have hlen := hfuel
      simp [chainFlat] at hlen ⊢
      have hSi : Si.length ≥ 1 := by
        cases Si with
        | nil => exact absurd rfl hne
        | cons a b => simp
      omega

/-- Completeness of a chainl1 level on a decomposed chain sentence. -/
theorem chainl1_run (p : Parser Expr) (op : Parser (Expr → Expr → Expr))
    (stop substop opTok : Token → Bool)
    (hss : ∀ t, stop t = true → substop t = true)
    (hos : ∀ t, opTok t = true → substop t = true)
    (hop_err : ∀ rest, restStop stop rest = true → op rest = .err false)
    (hop_ok : ∀ t ts, opTok t = true → headNotSpace ts = true →
      ∃ f, op (t :: ts) = .ok f ts true)
    (hsub_ns : ∀ rest, restStop substop rest = true → headNotSpace rest = true)
    (S₀ : List Token) (comps : List (Token × List Token)) (rest : List Token)
    (h₀ : ∀ tail, restStop substop tail = true →
      ∃ e, p (S₀ ++ tail) = .ok e tail true)
    (hcomps : ∀ t Si, (t, Si) ∈ comps → opTok t = true ∧ Si ≠ [] ∧
      headNotSpace Si = true ∧
      (∀ tail, restStop substop tail = true →
        ∃ e, p (Si ++ tail) = .ok e tail true))
    (hrest : restStop stop rest = true) :
    ∃ e, chainl1 p op ((S₀ ++ chainFlat comps) ++ rest) = .ok e rest true := by
  have hsubcond : restStop substop (chainFlat comps ++ rest) = true := by
    cases hc : comps with
    | nil =>
      simp [chainFlat]
      exact restStop_mono hss hrest
    | cons hd tl =>
      obtain ⟨t', S'⟩ := hd
      obtain ⟨hopt', _, _, _⟩ := hcomps t' S' (by simp [hc])
      simp [chainFlat]
      exact hos t' hopt'
  obtain ⟨e₀, he₀⟩ := h₀ (chainFlat comps ++ rest) hsubcond
  obtain ⟨e, he⟩ := chainRun p op stop substop opTok hss hos hop_err hop_ok
    hsub_ns comps rest e₀ ((chainFlat comps ++ rest).length + 1) hcomps hrest
    (by omega)
  refine ⟨e, ?_⟩
  rw [List.append_assoc]
  unfold chainl1
  rw [he₀]
  exact he

/-! ## Behaviour of the operator rules on their tokens and on followers -/

theorem cmpStop_atomStop {t : Token} (h : cmpStop t = true) : atomStop t = true :=
  multStop_atomStop (addStop_multStop (cmpStop_addStop h))

theorem conjStop_atomStop {t : Token} (h : conjStop t = true) : atomStop t = true :=
  cmpStop_atomStop (conjStop_cmpStop h)

theorem multOpTok_atomStop {t : Token} (h : multOpTok t = true) :
    atomStop t = true := by
  have ht : (t = .Keyword .Mult ∨ t = .Keyword .Div) ∨ t = .Keyword .Mod := by
    simpa [multOpTok] using h
  rcases ht with (rfl | rfl) | rfl <;> rfl

theorem addOpTok_multStop {t : Token} (h : addOpTok t = true) :
    multStop t = true := by
  have ht : t = .Keyword .Add ∨ t = .Keyword .Sub := by
    simpa [addOpTok] using h
  rcases ht with rfl | rfl <;> rfl

theorem andalsoOpTok_cmpStop {t : Token} (h : andalsoOpTok t = true) :
    cmpStop t = true := by
  have ht : t = .Keyword .AndAlso := by simpa [andalsoOpTok] using h
  subst ht
  rfl

theorem orelseOpTok_conjStop {t : Token} (h : orelseOpTok t = true) :
    conjStop t = true := by
  have ht : t = .Keyword .OrElse := by simpa [orelseOpTok] using h
  subst ht
  rfl

theorem multOp_ok {t : Token} {ts : List Token} (h : multOpTok t = true)
    (hns : headNotSpace ts = true) : ∃ f, multOp (t :: ts) = .ok f ts true := by
  have ht : (t = .Keyword .Mult ∨ t = .Keyword .Div) ∨ t = .Keyword .Mod := by
    simpa [multOpTok] using h
  rcases ht with (rfl | rfl) | rfl <;> exact ⟨_, pmap_ok (lex_ok rfl rfl hns)⟩

theorem addOp_ok {t : Token} {ts : List Token} (h : addOpTok t = true)
    (hns : headNotSpace ts = true) : ∃ f, addOp (t :: ts) = .ok f ts true := by
  have ht : t = .Keyword .Add ∨ t = .Keyword .Sub := by
    simpa [addOpTok] using h
  rcases ht with rfl | rfl <;> exact ⟨_, pmap_ok (lex_ok rfl rfl hns)⟩

theorem andalsoOp_ok {t : Token} {ts : List Token} (h : andalsoOpTok t = true)
    (hns : headNotSpace ts = true) :
    ∃ f, andalsoOp (t :: ts) = .ok f ts true := by
  have ht : t = .Keyword .AndAlso := by simpa [andalsoOpTok] using h
  subst ht
  exact ⟨_, pmap_ok (lex_ok rfl rfl hns)⟩

theorem orelseOp_ok {t : Token} {ts : List Token} (h : orelseOpTok t = true) :
    ∃ f, orelseOp (t :: ts) = .ok f ts true := by
  have ht : t = .Keyword .OrElse := by simpa [orelseOpTok] using h
  subst ht
  exact ⟨_, rfl⟩

theorem multOp_stop {rest : List Token} (h : restStop multStop rest = true) :
    multOp rest = .err false := by
  cases rest with
  | nil => rfl
  | cons t ts =>
    rcases t with s | l | nn | k | d | _
    · simp [restStop, multStop, addStop, cmpStop, conjStop, expnStop] at h
    · simp [restStop, multStop, addStop, cmpStop, conjStop, expnStop] at h
    · simp [restStop, multStop, addStop, cmpStop, conjStop, expnStop] at h
    · cases k <;>
        first
        | rfl
        | simp [restStop, multStop, addStop, cmpStop, conjStop, expnStop] at h
    · cases d <;>
        first
        | rfl
        | simp [restStop, multStop, addStop, cmpStop, conjStop, expnStop] at h
    · rfl

theorem addOp_stop {rest : List Token} (h : restStop addStop rest = true) :
    addOp rest = .err false := by
  cases rest with
  | nil => rfl
  | cons t ts =>
    rcases t with s | l | nn | k | d | _
    · simp [restStop, addStop, cmpStop, conjStop, expnStop] at h
    · simp [restStop, addStop, cmpStop, conjStop, expnStop] at h
    · simp [restStop, addStop, cmpStop, conjStop, expnStop] at h
    · cases k <;>
        first
        | rfl
        | simp [restStop, addStop, cmpStop, conjStop, expnStop] at h
    · cases d <;>
        first
        | rfl
        | simp [restStop, addStop, cmpStop, conjStop, expnStop] at h
    · rfl

theorem andalsoOp_stop {rest : List Token} (h : restStop conjStop rest = true) :
    andalsoOp rest = .err false := by
  cases rest with
  | nil => rfl
  | cons t ts =>
    rcases t with s | l | nn | k | d | _
    · simp [restStop, conjStop, expnStop] at h
    · simp [restStop, conjStop, expnStop] at h
    · simp [restStop, conjStop, expnStop] at h
    · cases k <;>
        first
        | rfl
        | simp [restStop, conjStop, expnStop] at h
    · cases d <;>
        first
        | rfl
        | simp [restStop, conjStop, expnStop] at h
    · rfl

theorem orelseOp_stop {rest : List Token} (h : restStop expnStop rest = true) :
    orelseOp rest = .err false := by
  cases rest with
  | nil => rfl
  | cons t ts =>
    rcases t with s | l | nn | k | d | _
    · simp [restStop, expnStop] at h
    · simp [restStop, expnStop] at h
    · simp [restStop, expnStop] at h
    · cases k <;>
        first
        | rfl
        | simp [restStop, expnStop] at h
    · cases d <;>
        first
        | rfl
        | simp [restStop, expnStop] at h
    · rfl

theorem cmpOp_stop {rest : List Token} (h : restStop cmpStop rest = true) :
    cmpOp rest = .err false := by
  cases rest with
  | nil => rfl
  | cons t ts =>
    rcases t with s | l | nn | k | d | _
    · simp [restStop, cmpStop, conjStop, expnStop] at h
    · simp [restStop, cmpStop, conjStop, expnStop] at h
    · simp [restStop, cmpStop, conjStop, expnStop] at h
    · cases k <;>
        first
        | rfl
        | simp [restStop, cmpStop, conjStop, expnStop] at h
    · cases d <;>
        first
        | rfl
        | simp [restStop, cmpStop, conjStop, expnStop] at h
    · rfl

/-- The head token of a sentence is never a whitespace-run token. -/
theorem sent_head_not_space {lv : Lv} {S : List Token} (h : Sent lv S) :
    headNotSpace S = true := by
  obtain ⟨t, S', hS, h1, _, _⟩ := sent_start h
  rw [hS]
  exact startTok_not_space h1 S'

/-! ## Run lemmas: each chain level parses its decomposed sentences -/

theorem multRun {S : List Token}
    (h : ChainDecomp .nega multOpTok (LevelOK nega atomStop) S) :
    LevelOK mult multStop S := by
  obtain ⟨S₀, comps, hSeq, hS₀sent, hS₀ok, hcomps⟩ := h
  intro n rest hlen hrest
  subst hSeq
  have hlen' : S₀.length + (chainFlat comps).length ≤ n + 1 := by
    simpa using hlen
  obtain ⟨e, he⟩ := chainl1_run (nega (expn n)) multOp multStop atomStop
    multOpTok (fun t ht => multStop_atomStop ht)
    (fun t ht => multOpTok_atomStop ht)
    (fun r hr => multOp_stop hr)
    (fun t ts ht hns => multOp_ok ht hns)
    (fun r hr => restStop_atom_not_space hr)
    S₀ comps rest
    (fun tail htail => hS₀ok n tail (by omega) htail)
    (fun t Si hmem => by
      obtain ⟨hop, hsent, hok⟩ := hcomps t Si hmem
      have hle := chainFlat_mem_length hmem
      exact ⟨hop, sent_ne_nil hsent, sent_head_not_space hsent,
        fun tail htail => hok n tail (by omega) htail⟩)
    hrest
  exact ⟨e, he⟩

theorem addRun {S : List Token}
    (h : ChainDecomp .mult addOpTok (LevelOK mult multStop) S) :
    LevelOK add addStop S := by
  obtain ⟨S₀, comps, hSeq, hS₀sent, hS₀ok, hcomps⟩ := h
  intro n rest hlen hrest
  subst hSeq
  have hlen' : S₀.length + (chainFlat comps).length ≤ n + 1 := by
    simpa using hlen
  obtain ⟨e, he⟩ := chainl1_run (mult (expn n)) addOp addStop multStop
    addOpTok (fun t ht => addStop_multStop ht)
    (fun t ht => addOpTok_multStop ht)
    (fun r hr => addOp_stop hr)
    (fun t ts ht hns => addOp_ok ht hns)
    (fun r hr => restStop_atom_not_space (restStop_mono
      (fun t ht => multStop_atomStop ht) hr))
    S₀ comps rest
    (fun tail htail => hS₀ok n tail (by omega) htail)
    (fun t Si hmem => by
      obtain ⟨hop, hsent, hok⟩ := hcomps t Si hmem
      have hle := chainFlat_mem_length hmem
      exact ⟨hop, sent_ne_nil hsent, sent_head_not_space hsent,
        fun tail htail => hok n tail (by omega) htail⟩)
    hrest
  exact ⟨e, he⟩

theorem conjRun {S : List Token}
    (h : ChainDecomp .cmp andalsoOpTok (LevelOK cmp cmpStop) S) :
    LevelOK conj conjStop S := by
  obtain ⟨S₀, comps, hSeq, hS₀sent, hS₀ok, hcomps⟩ := h
  intro n rest hlen hrest
  subst hSeq
  have hlen' : S₀.length + (chainFlat comps).length ≤ n + 1 := by
    simpa using hlen
  obtain ⟨e, he⟩ := chainl1_run (cmp (expn n)) andalsoOp conjStop cmpStop
    andalsoOpTok (fun t ht => conjStop_cmpStop ht)
    (fun t ht => andalsoOpTok_cmpStop ht)
    (fun r hr => andalsoOp_stop hr)
    (fun t ts ht hns => andalsoOp_ok ht hns)
    (fun r hr => restStop_atom_not_space (restStop_mono
      (fun t ht => cmpStop_atomStop ht) hr))
    S₀ comps rest
    (fun tail htail => hS₀ok n tail (by omega) htail)
    (fun t Si hmem => by
      obtain ⟨hop, hsent, hok⟩ := hcomps t Si hmem
      have hle := chainFlat_mem_length hmem
      exact ⟨hop, sent_ne_nil hsent, sent_head_not_space hsent,
        fun tail htail => hok n tail (by omega) htail⟩)
    hrest
  exact ⟨e, he⟩

theorem disjRun {S : List Token}
    (h : ChainDecomp .conj orelseOpTok (LevelOK conj conjStop) S) :
    LevelOK disj expnStop S := by
  obtain ⟨S₀, comps, hSeq, hS₀sent, hS₀ok, hcomps⟩ := h
  intro n rest hlen hrest
  subst hSeq
  have hlen' : S₀.length + (chainFlat comps).length ≤ n + 1 := by
    simpa using hlen
  obtain ⟨e, he⟩ := chainl1_run (conj (expn n)) orelseOp expnStop conjStop
    orelseOpTok (fun t ht => expnStop_conjStop ht)
    (fun t ht => orelseOpTok_conjStop ht)
    (fun r hr => orelseOp_stop hr)
    (fun t ts ht _ => orelseOp_ok ht)
    (fun r hr => restStop_atom_not_space (restStop_mono
      (fun t ht => conjStop_atomStop ht) hr))
    S₀ comps rest
    (fun tail htail => hS₀ok n tail (by omega) htail)
    (fun t Si hmem => by
      obtain ⟨hop, hsent, hok⟩ := hcomps t Si hmem
      have hle := chainFlat_mem_length hmem
      exact ⟨hop, sent_ne_nil hsent, sent_head_not_space hsent,
        fun tail htail => hok n tail (by omega) htail⟩)
    hrest
  exact ⟨e, he⟩

/-! ## Assembly lemmas for the non-chain levels -/

theorem startTokD_facts {t : Token} (h : startTokD t = true) (ts : List Token) :
    headNotSpace (t :: ts) = true ∧ t ≠ .Keyword .Let ∧ t ≠ .Keyword .If := by
  cases t with
  | Name s => exact ⟨rfl, by simp, by simp⟩
  | Lit l => exact ⟨rfl, by simp, by simp⟩
  | Space nn => simp [startTokD] at h
  | Keyword k => cases k <;> simp_all [startTokD, headNotSpace]
  | Paren d => cases d <;> simp_all [startTokD, headNotSpace]
  | EndOfFile => simp [startTokD] at h

theorem atomStartTok_cases {t : Token} (h : atomStartTok t = true) :
    (∃ s, t = .Name s) ∨ (∃ l, t = .Lit l) ∨ t = .Paren .Left := by
  cases t with
  | Name s => exact Or.inl ⟨s, rfl⟩
  | Lit l => exact Or.inr (Or.inl ⟨l, rfl⟩)
  | Space nn => simp [atomStartTok] at h
  | Keyword k => cases k <;> simp_all [atomStartTok]
  | Paren d => cases d <;> simp_all [atomStartTok]
  | EndOfFile => simp [atomStartTok] at h

theorem letVal_err {rec : Parser Expr} {t : Token} {ts : List Token}
    (hns : headNotSpace (t :: ts) = true) (hne : t ≠ .Keyword .Let) :
    letVal rec (t :: ts) = .err false := by
  have h := lex_err (token_err hne ts) hns
  exact pmap_err (seq_err1 (seq_err1 (seq_err1 (seq_err1 (seq_err1 (seq_err1
    (seq_err1 h)))))))

theorem ifThenElse_err {rec : Parser Expr} {t : Token} {ts : List Token}
    (hns : headNotSpace (t :: ts) = true) (hne : t ≠ .Keyword .If) :
    ifThenElse rec (t :: ts) = .err false := by
  have h := lex_err (token_err hne ts) hns
  exact pmap_err (seq_err1 (seq_err1 (seq_err1 (seq_err1 (seq_err1 h)))))

theorem atom_name_ok (rec : Parser Expr) (nm : String) (rest : List Token)
    (hns : headNotSpace rest = true) :
    atom rec (.Name nm :: rest) = .ok (.Var nm) rest true :=
  choice2_ok (lex_ok rfl rfl hns)

theorem atom_lit_ok (rec : Parser Expr) (l : Literal) (rest : List Token)
    (hns : headNotSpace rest = true) :
    atom rec (.Lit l :: rest) = .ok (.Lit l) rest true := by
  unfold atom
  rw [choice2_err1]
  · exact choice2_ok (lex_ok rfl rfl hns)
  · exact lex_err rfl rfl

theorem atom_paren_ok {rec : Parser Expr} {S' rest : List Token} {e : Expr}
    (hS : headNotSpace S' = true) (hSne : S' ≠ [])
    (hrec : rec (S' ++ (.Paren .Right :: rest)) =
      .ok e (.Paren .Right :: rest) true)
    (hns : headNotSpace rest = true) :
    atom rec (.Paren .Left :: (S' ++ (.Paren .Right :: rest))) =
      .ok e rest true := by
  have h1 : headNotSpace (S' ++ (.Paren .Right :: rest)) = true :=
    headNotSpace_append hSne hS
  have hopen : lex (token (.Paren .Left))
      (.Paren .Left :: (S' ++ (.Paren .Right :: rest))) =
      .ok () (S' ++ (.Paren .Right :: rest)) true :=
    lex_ok (token_ok _ _) rfl h1
  have hinner : lex rec (S' ++ (.Paren .Right :: rest)) =
      .ok e (.Paren .Right :: rest) true :=
    lex_ok hrec h1 rfl
  have hclose : lex (token (.Paren .Right)) (.Paren .Right :: rest) =
      .ok () rest true :=
    lex_ok (token_ok _ _) rfl hns
  have hb : between (lex (token (.Paren .Left))) (lex (token (.Paren .Right)))
      (lex rec) (.Paren .Left :: (S' ++ (.Paren .Right :: rest))) =
      .ok e rest true := by
    simp [between, pmap, seq, hopen, hinner, hclose]
  unfold atom
  rw [choice2_err1, choice2_err1]
  · exact hb
  · exact lex_err rfl rfl
  · exact lex_err rfl rfl

theorem nega_not_ok {rec : Parser Expr} {j : Nat} {A rest : List Token} {e : Expr}
    (hA : atom rec (A ++ rest) = .ok e rest true) :
    nega rec (.Keyword .Not :: .Space (j + 1) :: (A ++ rest)) =
      .ok (.Unary .Not e) rest true := by
  refine choice2_ok (attempt_ok ?_)
  have hsp := space_pos j (A ++ rest)
  simp [pmap, seq, satisfyMap, hsp, hA]

theorem nega_atom_ok {rec : Parser Expr} {t : Token} {ts rest : List Token}
    {e : Expr} (hstart : atomStartTok t = true)
    (hA : atom rec (t :: ts) = .ok e rest true) :
    nega rec (t :: ts) = .ok e rest true := by
  rcases atomStartTok_cases hstart with ⟨s, rfl⟩ | ⟨l, rfl⟩ | rfl <;>
  · unfold nega
    rw [choice2_err1]
    · exact hA
    · apply attempt_err
      apply pmap_err
      apply seq_err1
      apply seq_err1
      rfl

theorem cmpOp_ok {k : Reserved} (hk : k = .Equal ∨ k = .LessThan)
    {ts : List Token} (hns : headNotSpace ts = true) :
    ∃ bop, cmpOp (.Keyword k :: ts) = .ok bop ts true := by
  rcases hk with rfl | rfl <;> exact ⟨_, lex_ok rfl rfl hns⟩

/-! ## Completeness: every sentence parses at its level -/

theorem sent_complete {lv : Lv} {S : List Token} (h : Sent lv S) : St lv S := by
  induction h with
  | @letv nm S₁ S₂ h₁ h₂ ih₁ ih₂ =>
    intro n rest hlen hrest
    have hlen2 := hlen
    simp at hlen2
    cases n with
    | zero => omega
    | succ m =>
      have hnsS₁ : headNotSpace (S₁ ++ (.Keyword .In ::
          (S₂ ++ (.Keyword .End :: rest)))) = true :=
        headNotSpace_append (sent_ne_nil h₁) (sent_head_not_space h₁)
      have hnsS₂ : headNotSpace (S₂ ++ (.Keyword .End :: rest)) = true :=
        headNotSpace_append (sent_ne_nil h₂) (sent_head_not_space h₂)
      obtain ⟨e₁, he₁⟩ := ih₁ m (.Keyword .In :: (S₂ ++ (.Keyword .End :: rest)))
        (by omega) rfl
      obtain ⟨e₂, he₂⟩ := ih₂ m (.Keyword .End :: rest) (by omega) rfl
      refine ⟨.Let nm e₁ e₂, ?_⟩
      have hstream : (([Token.Keyword .Let, Token.Keyword .Val, Token.Name nm,
          Token.Keyword .Equal] ++ S₁ ++ [Token.Keyword .In] ++ S₂ ++
          [Token.Keyword .End]) ++ rest) =
          Token.Keyword .Let :: Token.Keyword .Val :: Token.Name nm ::
            Token.Keyword .Equal :: (S₁ ++ (Token.Keyword .In ::
              (S₂ ++ (Token.Keyword .End :: rest)))) := by
        simp
      rw [hstream]
      have a1 := lex_ok (token_ok (Token.Keyword .Let)
        (Token.Keyword .Val :: Token.Name nm :: Token.Keyword .Equal ::
          (S₁ ++ (Token.Keyword .In :: (S₂ ++ (Token.Keyword .End :: rest)))))) rfl rfl
      have a2 := lex_ok (token_ok (Token.Keyword .Val)
        (Token.Name nm :: Token.Keyword .Equal ::
          (S₁ ++ (Token.Keyword .In :: (S₂ ++ (Token.Keyword .End :: rest)))))) rfl rfl
      have a3 : lex name (Token.Name nm :: Token.Keyword .Equal ::
          (S₁ ++ (Token.Keyword .In :: (S₂ ++ (Token.Keyword .End :: rest))))) =
          .ok nm (Token.Keyword .Equal ::
            (S₁ ++ (Token.Keyword .In :: (S₂ ++ (Token.Keyword .End :: rest))))) true :=
        lex_ok rfl rfl rfl
      have a4 := lex_ok (token_ok (Token.Keyword .Equal)
        (S₁ ++ (Token.Keyword .In :: (S₂ ++ (Token.Keyword .End :: rest))))) rfl hnsS₁
      have a5 : lex (expn m) (S₁ ++ (Token.Keyword .In ::
          (S₂ ++ (Token.Keyword .End :: rest)))) =
          .ok e₁ (Token.Keyword .In :: (S₂ ++ (Token.Keyword .End :: rest))) true :=
        lex_ok he₁ hnsS₁ rfl
      have a6 := lex_ok (token_ok (Token.Keyword .In)
        (S₂ ++ (Token.Keyword .End :: rest))) rfl hnsS₂
      have a7 : lex (expn m) (S₂ ++ (Token.Keyword .End :: rest)) =
          .ok e₂ (Token.Keyword .End :: rest) true :=
        lex_ok he₂ hnsS₂ rfl
      have a8 := token_ok (Token.Keyword .End) rest
      have hseq := seq_ok (seq_ok (seq_ok (seq_ok (seq_ok (seq_ok
        (seq_ok a1 a2) a3) a4) a5) a6) a7) a8
      refine choice2_ok ?_
      exact pmap_ok hseq
  | @ifte S₁ S₂ S₃ h₁ h₂ h₃ ih₁ ih₂ ih₃ =>
    intro n rest hlen hrest
    have hlen2 := hlen
    simp at hlen2
    cases n with
    | zero => omega
    | succ m =>
      have hnsS₁ : headNotSpace (S₁ ++ (.Keyword .Then ::
          (S₂ ++ (.Keyword .Else :: (S₃ ++ rest))))) = true :=
        headNotSpace_append (sent_ne_nil h₁) (sent_head_not_space h₁)
      have hnsS₂ : headNotSpace (S₂ ++ (.Keyword .Else :: (S₃ ++ rest))) = true :=
        headNotSpace_append (sent_ne_nil h₂) (sent_head_not_space h₂)
      have hnsS₃ : headNotSpace (S₃ ++ rest) = true :=
        headNotSpace_append (sent_ne_nil h₃) (sent_head_not_space h₃)
      obtain ⟨e₁, he₁⟩ := ih₁ m (.Keyword .Then ::
        (S₂ ++ (.Keyword .Else :: (S₃ ++ rest)))) (by omega) rfl
      obtain ⟨e₂, he₂⟩ := ih₂ m (.Keyword .Else :: (S₃ ++ rest)) (by omega) rfl
      obtain ⟨e₃, he₃⟩ := ih₃ m rest (by omega) hrest
      refine ⟨.IfThenElse e₁ e₂ e₃, ?_⟩
      have hstream : (([Token.Keyword .If] ++ S₁ ++ [Token.Keyword .Then] ++ S₂ ++
          [Token.Keyword .Else] ++ S₃) ++ rest) =
          Token.Keyword .If :: (S₁ ++ (Token.Keyword .Then ::
            (S₂ ++ (Token.Keyword .Else :: (S₃ ++ rest))))) := by
        simp
      rw [hstream]
      have a1 := lex_ok (token_ok (Token.Keyword .If)
        (S₁ ++ (Token.Keyword .Then ::
          (S₂ ++ (Token.Keyword .Else :: (S₃ ++ rest)))))) rfl hnsS₁
      have a2 : lex (expn m) (S₁ ++ (Token.Keyword .Then ::
          (S₂ ++ (Token.Keyword .Else :: (S₃ ++ rest))))) =
          .ok e₁ (Token.Keyword .Then ::
            (S₂ ++ (Token.Keyword .Else :: (S₃ ++ rest)))) true :=
        lex_ok he₁ hnsS₁ rfl
      have a3 := lex_ok (token_ok (Token.Keyword .Then)
        (S₂ ++ (Token.Keyword .Else :: (S₃ ++ rest)))) rfl hnsS₂
      have a4 : lex (expn m) (S₂ ++ (Token.Keyword .Else :: (S₃ ++ rest))) =
          .ok e₂ (Token.Keyword .Else :: (S₃ ++ rest)) true :=
        lex_ok he₂ hnsS₂ rfl
      have a5 := lex_ok (token_ok (Token.Keyword .Else) (S₃ ++ rest)) rfl hnsS₃
      have hfail : letVal (expn m) (Token.Keyword .If :: (S₁ ++
          (Token.Keyword .Then ::
            (S₂ ++ (Token.Keyword .Else :: (S₃ ++ rest)))))) = .err false :=
        letVal_err rfl (by simp)
      have hseq := seq_ok (seq_ok (seq_ok (seq_ok (seq_ok a1 a2) a3) a4) a5) he₃
      have hifok : ifThenElse (expn m) (Token.Keyword .If :: (S₁ ++
          (Token.Keyword .Then :: (S₂ ++ (Token.Keyword .Else :: (S₃ ++ rest)))))) =
          .ok (.IfThenElse e₁ e₂ e₃) rest true := pmap_ok hseq
      show expnStep (expn m) (Token.Keyword .If :: (S₁ ++ (Token.Keyword .Then ::
          (S₂ ++ (Token.Keyword .Else :: (S₃ ++ rest)))))) =
        .ok (.IfThenElse e₁ e₂ e₃) rest true
      unfold expnStep
      rw [choice2_err1 hfail]
      exact choice2_ok hifok
  | expnDisj hd ih =>
    have hrun := disjRun ih
    intro n rest hlen hrest
    obtain ⟨t, S', hS, hst, h2, _⟩ := sent_start hd
    obtain ⟨hns, hneLet, hneIf⟩ := startTokD_facts (h2 (by simp)) (S' ++ rest)
    cases n with
    | zero =>
      rw [hS] at hlen
      simp at hlen
    | succ m =>
      obtain ⟨e, he⟩ := hrun m rest hlen hrest
      refine ⟨e, ?_⟩
      rw [hS] at he ⊢
      have hlet : letVal (expn m) (t :: (S' ++ rest)) = .err false :=
        letVal_err hns hneLet
      have hif : ifThenElse (expn m) (t :: (S' ++ rest)) = .err false :=
        ifThenElse_err hns hneIf
      exact (choice2_err1 hlet).trans ((choice2_err1 hif).trans he)
  | @disjStep S₁ S₂ h₁ h₂ ih₁ ih₂ =>
    obtain ⟨S₀, comps, hSeq, hsent, hok, hcomps⟩ := ih₁
    refine ⟨S₀, comps ++ [(.Keyword .OrElse, S₂)], ?_, hsent, hok, ?_⟩
    · rw [hSeq, chainFlat_append]
      simp [chainFlat]
    · intro t Si hmem
      rcases List.mem_append.mp hmem with hm | hm
      · exact hcomps t Si hm
      · simp at hm
        obtain ⟨rfl, rfl⟩ := hm
        exact ⟨rfl, h₂, conjRun ih₂⟩
  | disjBase hc ih =>
    exact ⟨_, [], by simp [chainFlat], hc, conjRun ih, by simp⟩
  | @conjStep S₁ S₂ h₁ h₂ ih₁ ih₂ =>
    obtain ⟨S₀, comps, hSeq, hsent, hok, hcomps⟩ := ih₁
    refine ⟨S₀, comps ++ [(.Keyword .AndAlso, S₂)], ?_, hsent, hok, ?_⟩
    · rw [hSeq, chainFlat_append]
      simp [chainFlat]
    · intro t Si hmem
      rcases List.mem_append.mp hmem with hm | hm
      · exact hcomps t Si hm
      · simp at hm
        obtain ⟨rfl, rfl⟩ := hm
        exact ⟨rfl, h₂, ih₂⟩
  | conjBase hc ih =>
    exact ⟨_, [], by simp [chainFlat], hc, ih, by simp⟩
  | @cmpBin S₁ S₂ k hk h₁ h₂ ih₁ ih₂ =>
    have hr₁ := addRun ih₁
    have hr₂ := addRun ih₂
    intro n rest hlen hrest
    have hlen2 := hlen
    simp at hlen2
    have hnsS₂ : headNotSpace (S₂ ++ rest) = true :=
      headNotSpace_append (sent_ne_nil h₂) (sent_head_not_space h₂)
    have hstream : ((S₁ ++ [Token.Keyword k] ++ S₂) ++ rest) =
        S₁ ++ (Token.Keyword k :: (S₂ ++ rest)) := by simp
    rw [hstream]
    have hstop1 : restStop addStop (Token.Keyword k :: (S₂ ++ rest)) = true := by
      rcases hk with rfl | rfl <;> rfl
    obtain ⟨e₁, he₁⟩ := hr₁ n (Token.Keyword k :: (S₂ ++ rest)) (by omega) hstop1
    obtain ⟨bop, hbop⟩ := cmpOp_ok hk hnsS₂
    obtain ⟨e₂, he₂⟩ := hr₂ n rest (by omega)
      (restStop_mono (fun t ht => cmpStop_addStop ht) hrest)
    have hseq := seq_ok (seq_ok he₁ hbop) he₂
    refine ⟨.Binary e₁ bop e₂, ?_⟩
    refine choice2_ok (attempt_ok ?_)
    exact pmap_ok hseq
  | cmpBase hc ih =>
    have hr := addRun ih
    intro n rest hlen hrest
    obtain ⟨e, he⟩ := hr n rest hlen
      (restStop_mono (fun t ht => cmpStop_addStop ht) hrest)
    exact ⟨e, (choice2_err1 (attempt_err (pmap_err (seq_err1
      (seq_err2 he (cmpOp_stop hrest)))))).trans he⟩
  | @addStep S₁ S₂ k hk h₁ h₂ ih₁ ih₂ =>
    obtain ⟨S₀, comps, hSeq, hsent, hok, hcomps⟩ := ih₁
    refine ⟨S₀, comps ++ [(.Keyword k, S₂)], ?_, hsent, hok, ?_⟩
    · rw [hSeq, chainFlat_append]
      simp [chainFlat]
    · intro t Si hmem
      rcases List.mem_append.mp hmem with hm | hm
      · exact hcomps t Si hm
      · simp at hm
        obtain ⟨rfl, rfl⟩ := hm
        refine ⟨?_, h₂, multRun ih₂⟩
        rcases hk with rfl | rfl <;> rfl
  | addBase hc ih =>
    exact ⟨_, [], by simp [chainFlat], hc, multRun ih, by simp⟩
  | @multStep S₁ S₂ k hk h₁ h₂ ih₁ ih₂ =>
    obtain ⟨S₀, comps, hSeq, hsent, hok, hcomps⟩ := ih₁
    refine ⟨S₀, comps ++ [(.Keyword k, S₂)], ?_, hsent, hok, ?_⟩
    · rw [hSeq, chainFlat_append]
      simp [chainFlat]
    · intro t Si hmem
      rcases List.mem_append.mp hmem with hm | hm
      · exact hcomps t Si hm
      · simp at hm
        obtain ⟨rfl, rfl⟩ := hm
        refine ⟨?_, h₂, ih₂⟩
        rcases hk with rfl | rfl | rfl <;> rfl
  | multBase hc ih =>
    exact ⟨_, [], by simp [chainFlat], hc, ih, by simp⟩
  | @negaNot A j hA ih =>
    intro n rest hlen hrest
    have hlen2 := hlen
    simp at hlen2
    obtain ⟨e, he⟩ := ih n rest (by omega) hrest
    exact ⟨.Unary .Not e, nega_not_ok he⟩
  | negaBase hA ih =>
    intro n rest hlen hrest
    obtain ⟨t, S', hS, _, _, h3⟩ := sent_start hA
    obtain ⟨e, he⟩ := ih n rest hlen hrest
    refine ⟨e, ?_⟩
    rw [hS] at he ⊢
    exact nega_atom_ok (h3 rfl) he
  | @atomName nm =>
    intro n rest hlen hrest
    exact ⟨.Var nm, atom_name_ok (expn n) nm rest (restStop_atom_not_space hrest)⟩
  | @atomLit l =>
    intro n rest hlen hrest
    exact ⟨.Lit l, atom_lit_ok (expn n) l rest (restStop_atom_not_space hrest)⟩
  | @atomParen S' hS ih =>
    intro n rest hlen hrest
    have hlen2 := hlen
    simp at hlen2
    have hstream : ((Token.Paren .Left :: S' ++ [Token.Paren .Right]) ++ rest) =
        Token.Paren .Left :: (S' ++ (Token.Paren .Right :: rest)) := by simp
    rw [hstream]
    obtain ⟨e, he⟩ := ih n (Token.Paren .Right :: rest) (by omega) rfl
    exact ⟨e, atom_paren_ok (sent_head_not_space hS) (sent_ne_nil hS) he
      (restStop_atom_not_space hrest)⟩

/-- Claim C1 amended: for every token stream spelling a sentence of the
§4.2 grammar in which one positive-length whitespace-run token follows each
`not` keyword (and no other whitespace-run token appears), followed by the
end-of-input token, the entry point `prog` succeeds, returns an AST, and
consumes the entire stream; and when the token following the expression is
a legal follower other than the end-of-input token, `prog` fails. -/
theorem c1_prog_complete :
    (∀ S, Sent .expn S → ∃ e, prog (S ++ [Token.EndOfFile]) = .ok e [] true) ∧
    (∀ S t rest, Sent .expn S → expnStop t = true → t ≠ Token.EndOfFile →
      ∃ c, prog (S ++ t :: rest) = .err c) := by
  constructor
  · intro S h
    have hok : ExpnOK S := sent_complete h
    obtain ⟨e, he⟩ := hok ((S ++ [Token.EndOfFile]).length + 1) [Token.EndOfFile]
      (by simp only [List.length_append, List.length_cons, List.length_nil]
          omega)
      rfl
    refine ⟨e, ?_⟩
    show progFuel ((S ++ [Token.EndOfFile]).length + 1) (S ++ [Token.EndOfFile]) =
      .ok e [] true
    have htok := token_ok Token.EndOfFile ([] : List Token)
    have hseq := seq_ok he htok
    exact pmap_ok hseq
  · intro S t rest h hstop hne
    have hok : ExpnOK S := sent_complete h
    obtain ⟨e, he⟩ := hok ((S ++ t :: rest).length + 1) (t :: rest)
      (by simp only [List.length_append, List.length_cons]
          omega)
      hstop
    exact ⟨true || false, pmap_err (seq_err2 he (token_err hne rest))⟩

/-- Witness for the amended claim C1 at a concrete stream: the sentence
`a` parses to completion, and with a stray closing parenthesis in place of
the end-of-input token the entry point fails. -/
theorem c1_witness :
    (∃ e, prog ([Token.Name "a"] ++ [Token.EndOfFile]) = .ok e [] true) ∧
    (∃ c, prog ([Token.Name "a"] ++ Token.Paren .Right :: []) = .err c) := by
  constructor
  · exact c1_prog_complete.1 [Token.Name "a"]
      (Sent.expnDisj (Sent.disjBase (Sent.conjBase (Sent.cmpBase (Sent.addBase
        (Sent.multBase (Sent.negaBase Sent.atomName)))))))
  · exact c1_prog_complete.2 [Token.Name "a"] (Token.Paren .Right) []
      (Sent.expnDisj (Sent.disjBase (Sent.conjBase (Sent.cmpBase (Sent.addBase
        (Sent.multBase (Sent.negaBase Sent.atomName)))))))
      (by decide) (by decide)

/-- Witness for the amended claim C10 at a concrete tree. -/
theorem c10_witness :
    pretty (Expr.Binary (.Var "x") .Add (.Var "y")) =
      joinLines (blockLines (Expr.Binary (.Var "x") .Add (.Var "y"))) ∧
    lastCharOK (pretty (Expr.Binary (.Var "x") .Add (.Var "y"))) ∧
    (display (Expr.Binary (.Var "x") .Add (.Var "y"))).data.getLast? =
      some '\n' :=
  c10_no_trailing_newline (Expr.Binary (.Var "x") .Add (.Var "y"))
    (show lastCharOK "x" ∧ lastCharOK "y" from
      ⟨by unfold lastCharOK; decide, by unfold lastCharOK; decide⟩)

/-- Claim C9: the indented-outline renderer writes, for every node, its
label line at the current indent and then each child recursively at the
current indent plus 3 spaces (the line model `outlineLines`), and its output
is exactly those lines each followed by a trailing line terminator — so
every output line, the last included, is terminated. -/
theorem c9_display_outline (e : Expr) (i : Nat) :
    drawTree e i = strJoin ((outlineLines e i).map (fun l => l ++ "\n")) ∧
    outlineLines e i ≠ [] ∧
    display e = strJoin ((outlineLines e 0).map (fun l => l ++ "\n")) ∧
    (display e).data.getLast? = some '\n' :=
  ⟨drawTree_join e i, outlineLines_ne_nil e i, drawTree_join e 0, by
    show (drawTree e 0).data.getLast? = some '\n'
    rw [drawTree_join e 0]
    exact strJoin_terminated_last _ (outlineLines_ne_nil e 0)⟩

end Ferus
